import Mathlib

/-!
A shallow embedding of the osp1 shell (`shell.c`, `shell.h`)

The development follows the layout of the C source:

* the job registry (`processes[]`, `processCount`) with `isProcess`,
  `unregisterProcess`, `registerProcess`;
* `strtrim` on NUL-terminated character memory;
* `waitForPIDs` as a fuel-indexed run of its polling loop against an
  environment that answers `waitpid` and the `abortWait` flag;
* `killall`;
* `parseProgram`, `parseCommand` and the dispatch in `main`.

Conventions.  A `pid_t` is an `Int`.  A `size_t` is a `Nat` with explicit
reduction modulo `2 ^ 64`.  A `char *` is modelled by the memory it points
into: a `List Char` holding the characters from the pointer on, where the
character `NUL` (or the end of the list) terminates the string; `p + k` is
`List.drop k`.  Calls into the operating system are answered by explicit
environment parameters.
-/

namespace Shell

/-! ## Constants of `shell.h` -/

/-- Number of background processes the shell keeps track of (`MAX_PROCESSES`). -/
def MAX_PROCESSES : Nat := 8

/-- Modulus of `size_t` arithmetic. -/
def SIZE_MOD : Nat := 2 ^ 64

/-! ## The job registry -/

/-- Global registry state: the array `processes[MAX_PROCESSES]` and the counter
`processCount`. -/
structure Registry where
  processes : List Int
  processCount : Nat
  size_eq : processes.length = MAX_PROCESSES
deriving DecidableEq

/-- Registry state right after the initialisation loop of `main`: every slot holds
`-1` and `processCount` still has its static initial value `0`. -/
def initRegistry : Registry :=
  ⟨List.replicate MAX_PROCESSES (-1), 0, by simp⟩

/-- Loop of `isProcess`: scan the slots, return `true` at the first one equal to `id`. -/
def isProcessLoop (id : Int) : List Int → Bool
  | [] => false
  | p :: ps => if p = id then true else isProcessLoop id ps

/-- Source function `isProcess`. -/
def isProcess (r : Registry) (id : Int) : Bool :=
  isProcessLoop id r.processes

/-- Loop of `unregisterProcess`: overwrite the first slot equal to `id` with `-1`. -/
def unregisterLoop (id : Int) : List Int → List Int
  | [] => []
  | p :: ps => if p = id then (-1) :: ps else p :: unregisterLoop id ps

theorem unregisterLoop_length (id : Int) (ps : List Int) :
    (unregisterLoop id ps).length = ps.length := by
  induction ps with
  | nil => rfl
  | cons p ps ih =>
    unfold unregisterLoop
    split <;> simp [ih]

/-- Source function `unregisterProcess`: `processCount--` (on `size_t`), then the
slot search. -/
def unregisterProcess (r : Registry) (id : Int) : Registry :=
  ⟨unregisterLoop id r.processes, (r.processCount + (SIZE_MOD - 1)) % SIZE_MOD,
    by rw [unregisterLoop_length]; exact r.size_eq⟩

/-- Loop of `registerProcess`: store `id` in the first slot holding `-1`. -/
def registerLoop (id : Int) : List Int → List Int
  | [] => []
  | p :: ps => if p = -1 then id :: ps else p :: registerLoop id ps

theorem registerLoop_length (id : Int) (ps : List Int) :
    (registerLoop id ps).length = ps.length := by
  induction ps with
  | nil => rfl
  | cons p ps ih =>
    unfold registerLoop
    split <;> simp [ih]

/-- Source function `registerProcess`: `processCount++` (on `size_t`), then the
slot search. -/
def registerProcess (r : Registry) (id : Int) : Registry :=
  ⟨registerLoop id r.processes, (r.processCount + 1) % SIZE_MOD,
    by rw [registerLoop_length]; exact r.size_eq⟩

/-- Number of cells of a slot array that are not empty (`-1`). -/
def liveCount (ps : List Int) : Nat := (ps.filter (fun p => p ≠ -1)).length

/-- Number of slots of the registry that are not empty. -/
def liveSlots (r : Registry) : Nat := liveCount r.processes

/-- The registry invariant: `processCount` is the number of non-empty slots. -/
def RegistryInv (r : Registry) : Prop :=
  r.processCount = liveSlots r

instance (r : Registry) : Decidable (RegistryInv r) := by
  unfold RegistryInv; infer_instance

/-- An id is held in a slot: some non-empty slot stores it. -/
def Held (r : Registry) (id : Int) : Prop :=
  id ≠ -1 ∧ id ∈ r.processes

instance (r : Registry) (id : Int) : Decidable (Held r id) := by
  unfold Held; infer_instance

/-- Registry states the shell can be in: the initial one, closed under the two
updates the shell performs (`registerProcess` on the id returned by `fork` for a
background job, admitted by `parseCommand` only below capacity, and
`unregisterProcess` on an id different from `-1` that `isProcess` accepted). -/
inductive Reachable : Registry → Prop
  | init : Reachable initRegistry
  | register (r : Registry) (id : Int) :
      Reachable r → 0 < id → r.processCount ≠ MAX_PROCESSES →
      Reachable (registerProcess r id)
  | unregister (r : Registry) (id : Int) :
      Reachable r → isProcess r id = true → id ≠ -1 →
      Reachable (unregisterProcess r id)

/-! ## `killall` -/

/-- Source function `killall`: the list of process ids handed to
`kill(_, SIGTERM)`, in slot order.  A slot is signalled when its content is
different from `0`. -/
def killall (r : Registry) : List Int :=
  r.processes.filter (fun p => p ≠ 0)

/-! ## `waitForPIDs` -/

/-- What `waitForPIDs` does that is visible outside of it. -/
inductive WaitEvent
  | notChild (id : Int)      -- "PID %d is not a child of this shell!"
  | poll (id : Int)          -- a call `waitpid(id, &status, WNOHANG)`
  | checkError               -- `strerror(errno)` after `waitpid` returned `< 0`
  | terminated (id : Int)    -- the termination report, followed by `unregisterProcess(id)`
deriving DecidableEq

/-- The environment of one call of `waitForPIDs`, indexed by the number of the
loop iteration: the value of the flag `abortWait` read by the loop condition
and the value returned by `waitpid` for the polled id. -/
structure WaitEnv where
  abortWait : Nat → Bool
  waitpid : Nat → Int → Int

/-- How a run of the polling loop ended. -/
inductive WaitExit
  | noValid       -- `argc == 0 || argc == abortedCount`, before the loop
  | interrupted   -- the loop condition saw `abortWait`
  | pollError     -- `waitpid` returned `< 0`
  | allDone       -- `abortedCount == argc`
  | outOfBounds   -- a read of `pids[i]` with `i` outside of the array
deriving DecidableEq

/-- Local and global state of `waitForPIDs` inside the polling loop. -/
structure WaitState where
  reg : Registry
  pids : List Int
  i : Nat
  abortedCount : Nat
  trace : List WaitEvent
deriving DecidableEq

/-- First loop of `waitForPIDs`: ids that `isProcess` does not find are
reported, overwritten with `-1` and counted.  Returns the array, the count and
the reports. -/
def validatePids (r : Registry) : List Int → List Int × Nat × List WaitEvent
  | [] => ([], 0, [])
  | p :: ps =>
    let rest := validatePids r ps
    if isProcess r p then (p :: rest.1, rest.2.1, rest.2.2)
    else ((-1) :: rest.1, rest.2.1 + 1, WaitEvent.notChild p :: rest.2.2)

/-- One evaluation of the loop condition and, when it holds, of the loop body
of `waitForPIDs`; `k` is the number of the iteration.  Returns the state after
it and, when the function returned, the way it did. -/
def waitStep (env : WaitEnv) (argc : Nat) (k : Nat) (s : WaitState) :
    WaitState × Option WaitExit :=
  if env.abortWait k then (s, some WaitExit.interrupted)
  else
    match s.pids[s.i]? with
    | none => (s, some WaitExit.outOfBounds)
    | some pid =>
      if pid ≠ -1 then
        let ret := env.waitpid k pid
        let s1 := { s with trace := s.trace ++ [WaitEvent.poll pid] }
        if ret < 0 then
          ({ s1 with trace := s1.trace ++ [WaitEvent.checkError] }, some WaitExit.pollError)
        else if ret > 0 then
          let s2 : WaitState :=
            { s1 with
              reg := unregisterProcess s1.reg pid
              abortedCount := s1.abortedCount + 1
              trace := s1.trace ++ [WaitEvent.terminated pid] }
          if s2.abortedCount = argc then (s2, some WaitExit.allDone)
          else
            let i1 := s2.i + 1
            ({ s2 with i := if i1 = argc then 0 else i1 }, none)
        else (s1, none)
      else (s, none)

/-- The polling loop of `waitForPIDs`, run for at most `fuel` iterations
starting with iteration number `k`.  The second component is `none` when the
loop is still running after `fuel` iterations. -/
def waitLoop (env : WaitEnv) (argc : Nat) : Nat → Nat → WaitState → WaitState × Option WaitExit
  | 0, _, s => (s, none)
  | fuel + 1, k, s =>
    match waitStep env argc k s with
    | (s1, some e) => (s1, some e)
    | (s1, none) => waitLoop env argc fuel (k + 1) s1

/-- Source function `waitForPIDs(pids, argc)` with `argc = pids.length`, its
polling loop cut off after `fuel` iterations. -/
def waitForPIDs (env : WaitEnv) (fuel : Nat) (r : Registry) (pids : List Int) :
    WaitState × Option WaitExit :=
  let v := validatePids r pids
  let s0 : WaitState := ⟨r, v.1, 0, v.2.1, v.2.2⟩
  if pids.length = 0 ∨ pids.length = v.2.1 then (s0, some WaitExit.noValid)
  else waitLoop env pids.length fuel 0 s0

/-! ## Character memory, `strlen`, `strtrim`, `strsep` -/

/-- The terminating character of a C string. -/
def NUL : Char := Char.ofNat 0

/-- Library function `isspace` in the "C" locale: space, `\t`, `\n`, `\v`, `\f`, `\r`. -/
def isspace (c : Char) : Bool :=
  c = ' ' ∨ c = '\t' ∨ c = '\n' ∨ c = Char.ofNat 11 ∨ c = Char.ofNat 12 ∨ c = '\r'

/-- Read `m[i]`; the end of the modelled memory reads as the terminator. -/
def rd (m : List Char) (i : Nat) : Char := m.getD i NUL

/-- Library function `strlen`: number of characters before the first `NUL`. -/
def strlen : List Char → Nat
  | [] => 0
  | c :: cs => if c = NUL then 0 else strlen cs + 1

/-- The C string stored at the start of `m`: the characters before the first `NUL`. -/
def cstr : List Char → List Char
  | [] => []
  | c :: cs => if c = NUL then [] else c :: cstr cs

/-- First loop of `strtrim`, `while(isspace(*str)) str++`: the number of
increments of `str`. -/
def skipSpaces : List Char → Nat
  | [] => 0
  | c :: cs => if isspace c then skipSpaces cs + 1 else 0

/-- Second loop of `strtrim`, `while(end > str && isspace(*end)) end--`, with
`end` given as an offset from `str` (`m` is the memory at `str`): the final
offset. -/
def trimEnd (m : List Char) : Nat → Nat
  | 0 => 0
  | e + 1 => if isspace (rd m (e + 1)) then trimEnd m e else e + 1

/-- Source function `strtrim(str)` on the memory `m` at `str`.  Returns the
offset of the returned pointer from `str` and the memory at `str` after the
call. -/
def strtrim (m : List Char) : Nat × List Char :=
  let str := skipSpaces m
  if rd m str = NUL then (str, m)
  else
    let e := trimEnd (m.drop str) (strlen (m.drop str) - 1)
    (str, m.set (str + e + 1) NUL)

/-- Memory at the pointer returned by `strtrim(str)`, after the call. -/
def strtrimView (m : List Char) : List Char :=
  (strtrim m).2.drop (strtrim m).1

/-- Offset of the first occurrence of `delim` in the string at the start of `m`. -/
def findDelim (delim : Char) : List Char → Option Nat
  | [] => none
  | c :: cs =>
    if c = NUL then none
    else if c = delim then some 0
    else (findDelim delim cs).map (fun n => n + 1)

/-- Library function `strsep(&stringp, delim)` for a one-character `delim`.
Returns the token (the old `*stringp`, with the delimiter that ends it
overwritten by `NUL`) and the new `*stringp`; `none` is the `NULL` pointer. -/
def strsep (stringp : Option (List Char)) (delim : Char) :
    Option (List Char) × Option (List Char) :=
  match stringp with
  | none => (none, none)
  | some m =>
    match findDelim delim m with
    | none => (some m, none)
    | some n => (some (m.set n NUL), some (m.drop (n + 1)))

/-! ## `parseProgram` and `parseCommand` -/

/-- How a call of a parsing function ended. -/
inductive Res (α : Type)
  | ok (v : α)     -- it returned `true`
  | failed         -- it returned `false`
  | fault          -- an access outside of the object pointed into
  | outOfFuel      -- the modelled loop was cut off
deriving DecidableEq

/-- One cell of a `char **` array. -/
inductive Slot
  | garbage                  -- never written
  | null                     -- `NULL`
  | str (s : List Char)      -- a pointer to a heap copy of the string `s`
deriving DecidableEq

/-- The struct `program_t`; `args` is the allocated array, one `Slot` per cell. -/
structure program_t where
  args : List Slot
  argc : Nat
  malloced : Nat
deriving DecidableEq

/-- The struct `command_t`; `programs` lists the cells `programs[0 .. count-1]`
that have been written, the cells behind them are not represented. -/
structure command_t where
  programs : List program_t
  count : Nat
  malloced : Nat
  background : Bool
deriving DecidableEq

/-- An array of `n` cells obtained by `realloc` from `xs`. -/
def reallocSlots (xs : List Slot) (n : Nat) : List Slot :=
  (xs ++ List.replicate (n - xs.length) Slot.garbage).take n

/-- The `while((token = strsep(&programString, " ")) != NULL)` loop of
`parseProgram` followed by `params->args[params->argc] = NULL`.  The `k`-th
allocation request of the run succeeds when `alloc k`; the result carries the
number of requests made so far. -/
def parseProgramLoop (alloc : Nat → Bool) :
    Nat → Nat → program_t → Option (List Char) → Res (program_t × Nat)
  | 0, _, _, _ => Res.outOfFuel
  | fuel + 1, k, params, programString =>
    match strsep programString ' ' with
    | (none, _) =>
      if params.argc < params.args.length then
        Res.ok ({ params with args := params.args.set params.argc Slot.null }, k)
      else Res.fault
    | (some tok, rest) =>
      let token := strtrimView tok
      if strlen token > 0 then
        if params.argc < params.args.length then
          if alloc k then
            let p1 : program_t :=
              { params with
                args := params.args.set params.argc (Slot.str (cstr token))
                argc := params.argc + 1 }
            if p1.argc = p1.malloced then
              if alloc (k + 1) then
                parseProgramLoop alloc fuel (k + 2)
                  { p1 with
                    malloced := p1.malloced + 1
                    args := reallocSlots p1.args (p1.malloced + 1) } rest
              else Res.failed
            else parseProgramLoop alloc fuel (k + 1) p1 rest
          else Res.failed
        else Res.fault
      else parseProgramLoop alloc fuel k params rest

/-- Source function `parseProgram(params, programString)`. -/
def parseProgram (alloc : Nat → Bool) (k : Nat) (programString : List Char) :
    Res (program_t × Nat) :=
  if alloc k then
    parseProgramLoop alloc (programString.length + 2) (k + 1)
      ⟨[Slot.garbage], 0, 1⟩ (some programString)
  else Res.failed

/-- The `while((token = strsep(&commandStr, "|")) != NULL)` loop of `parseCommand`. -/
def parseCommandLoop (alloc : Nat → Bool) :
    Nat → Nat → command_t → Option (List Char) → Res (command_t × Nat)
  | 0, _, _, _ => Res.outOfFuel
  | fuel + 1, k, command, commandStr =>
    match strsep commandStr '|' with
    | (none, _) => Res.ok (command, k)
    | (some tok, rest) =>
      if command.count < command.malloced then
        match parseProgram alloc k (strtrimView tok) with
        | Res.ok (p, k1) =>
          let c1 : command_t :=
            { command with
              programs := command.programs ++ [p]
              count := command.count + 1 }
          if c1.count = c1.malloced then
            if alloc k1 then
              parseCommandLoop alloc fuel (k1 + 1)
                { c1 with malloced := c1.malloced + 2 } rest
            else Res.failed
          else parseCommandLoop alloc fuel k1 c1 rest
        | Res.failed => Res.failed
        | Res.fault => Res.fault
        | Res.outOfFuel => Res.outOfFuel
      else Res.fault

/-- Source function `parseCommand(commandStr, command)`.  The pointer
`commandStr` is given by the buffer `buf` it points into and its offset,
because `commandStr[length - 1]` lies before the pointer when the string is
empty; `processCount` is the global counter. -/
def parseCommand (alloc : Nat → Bool) (k : Nat) (processCount : Nat)
    (buf : List Char) (commandStr : Nat) : Res (command_t × Nat) :=
  if alloc k then
    let length := strlen (buf.drop commandStr)
    if commandStr + length = 0 then Res.fault
    else
      let last := commandStr + length - 1
      let background : Bool := rd buf last = '&'
      let buf1 := if background then buf.set last NUL else buf
      if background && MAX_PROCESSES == processCount then Res.failed
      else
        parseCommandLoop alloc (length + 2) (k + 1) ⟨[], 0, 2, background⟩
          (some (buf1.drop commandStr))
  else Res.failed

/-! ## `strtol`, the launch functions and the loop body of `main` -/

/-- Value of a decimal digit. -/
def digitVal (c : Char) : Option Nat :=
  if '0' ≤ c ∧ c ≤ '9' then some (c.toNat - '0'.toNat) else none

/-- The digits at the start of a string, as a number, and how many they are. -/
def readDigits : List Char → Nat → Nat → Nat × Nat
  | [], acc, n => (acc, n)
  | c :: cs, acc, n =>
    match digitVal c with
    | some d => readDigits cs (10 * acc + d) (n + 1)
    | none => (acc, n)

/-- Largest value of a `long`. -/
def LONG_MAX : Int := 2 ^ 63 - 1

/-- Library function `strtol(s, &ptr, 10)`: the value, the offset of `ptr` from
`s`, and whether `errno` was set to `ERANGE`. -/
def strtol (s : List Char) : Int × Nat × Bool :=
  let w := skipSpaces s
  let body := s.drop w
  let sign : Nat × Bool :=
    match body with
    | '-' :: _ => (1, true)
    | '+' :: _ => (1, false)
    | _ => (0, false)
  let d := readDigits (body.drop sign.1) 0 0
  if d.2 = 0 then (0, 0, false)
  else
    let v : Int := if sign.2 then -(d.1 : Int) else (d.1 : Int)
    if v > LONG_MAX then (LONG_MAX, w + sign.1 + d.2, true)
    else if v < -LONG_MAX - 1 then (-LONG_MAX - 1, w + sign.1 + d.2, true)
    else (v, w + sign.1 + d.2, false)

/-- The conversion `(pid_t)` of a `long`: reduction to 32 bits, two's complement. -/
def toPid (v : Int) : Int :=
  (v + 2 ^ 31) % 2 ^ 32 - 2 ^ 31

/-- What the shell process does that is visible outside of it, one loop
iteration of `main` at a time. -/
inductive MainEvent
  | launchProgram (command : command_t)           -- the call
  | launchProgramWithPipe (command : command_t)   -- the call
  | execChild                                     -- the branch `fork() == 0`
  | waitForeground (pid : Int)                    -- `waitpid(pid, &status, 0)`
  | announce (pid : Int)                          -- "\n[%d]\n"
  | kill (pid : Int)                              -- `kill(pid, SIGTERM)`
  | chdir (path : Slot)
  | tooManyArguments
  | tooFewArguments
  | notValidPid (text : Slot)                     -- "'%s' is not a valid process id!"
  | waitForPIDs (pids : List Int) (trace : List WaitEvent) (exit : Option WaitExit)
  | pipeLength (count : Nat)                      -- "A pipe of length %zu was detected! ..."
  | osError                                       -- `strerror(errno)` on `stderr`
  | freeCommand
deriving DecidableEq

/-- How one loop iteration of `main` ended. -/
inductive Ctl
  | next                   -- the next iteration starts
  | exit (status : Nat)    -- `exit(status)`: `EXIT_SUCCESS` is 0, `EXIT_FAILURE` is 1
  | fault                  -- an access through `NULL` or outside of an object
  | outOfFuel              -- a modelled loop was cut off
deriving DecidableEq

/-- State of the shell process that survives a loop iteration of `main`. -/
structure ShellState where
  reg : Registry
  errnoRange : Bool        -- `errno == ERANGE`
deriving DecidableEq

/-- The environment of one loop iteration of `main`. -/
structure MainEnv where
  alloc : Nat → Bool               -- whether the k-th allocation request succeeds
  getcwd : Bool                    -- whether `getcwd` succeeds
  fgets : Option (List Char)       -- `inputBuffer` after `fgets`, `none` when it returned `NULL`
  fork : Int                       -- the value `fork` returns
  chdir : Bool                     -- whether `chdir` succeeds
  garbage : Nat → Int              -- content of the cells of a fresh `pids` array
  wait : WaitEnv
  waitFuel : Nat

/-- Parent and child view of `launchProgram` and of `launchProgramWithPipe`,
which differ in what the child does only: after `fork`, on failure the command
is freed and the process exits; in the child (`fork() == 0`) the programs are
executed and the code behind `execvp` exits; in the shell a foreground command
is waited for and a background command is registered and announced. -/
def launch (st : ShellState) (command : command_t) (forkRet : Int) :
    ShellState × List MainEvent × Ctl :=
  if forkRet < 0 then (st, [MainEvent.osError, MainEvent.freeCommand], Ctl.exit 1)
  else if forkRet = 0 then
    (st, [MainEvent.execChild, MainEvent.osError, MainEvent.freeCommand], Ctl.exit 1)
  else if !command.background then
    (st, [MainEvent.waitForeground forkRet, MainEvent.freeCommand], Ctl.next)
  else
    ({ st with reg := registerProcess st.reg forkRet },
      [MainEvent.announce forkRet, MainEvent.freeCommand], Ctl.next)

/-- Source function `launchProgram`. -/
def launchProgram (st : ShellState) (command : command_t) (forkRet : Int) :
    ShellState × List MainEvent × Ctl :=
  let r := launch st command forkRet
  (r.1, MainEvent.launchProgram command :: r.2.1, r.2.2)

/-- Source function `launchProgramWithPipe`. -/
def launchProgramWithPipe (st : ShellState) (command : command_t) (forkRet : Int) :
    ShellState × List MainEvent × Ctl :=
  let r := launch st command forkRet
  (r.1, MainEvent.launchProgramWithPipe command :: r.2.1, r.2.2)

/-- The `for(size_t i = 1; i < argc; i++)` loop of the `wait` branch of `main`
from index `i` on, over the cells `args[i ..]`.  Returns the `pids` array, the
reports, `errno == ERANGE`, and whether every cell read was a string. -/
def parsePids (args1 : Slot) : List Slot → Nat → List Int → Bool →
    List Int × List MainEvent × Bool × Bool
  | [], _, pids, er => (pids, [], er, true)
  | a :: rest, i, pids, er =>
    match a with
    | Slot.str s =>
      let t := strtol s
      let er1 := er || t.2.2
      if (i = 1 ∧ t.2.1 = 0) ∨ er1 = true then
        let r := parsePids args1 rest (i + 1) pids er1
        (r.1, MainEvent.notValidPid args1 :: r.2.1, r.2.2.1, r.2.2.2)
      else parsePids args1 rest (i + 1) (pids.set (i - 1) (toPid t.1)) er1
    | _ => (pids, [], er, false)

/-- The branch `command.count == 1` of `main` for a program name `name`
(`args[0]`) that is a string; `k` is the number of the next allocation
request (the unchecked `malloc` of `pids`). -/
def runSingle (env : MainEnv) (k : Nat) (st : ShellState) (command : command_t)
    (p : program_t) (name : List Char) : ShellState × List MainEvent × Ctl :=
  if name = "exit".toList then
    (st, (killall st.reg).map MainEvent.kill ++ [MainEvent.freeCommand], Ctl.exit 0)
  else if name.take 2 = "cd".toList then
    if p.argc > 2 then (st, [MainEvent.tooManyArguments, MainEvent.freeCommand], Ctl.next)
    else if p.argc = 1 then (st, [MainEvent.tooFewArguments, MainEvent.freeCommand], Ctl.next)
    else
      match p.args[1]? with
      | none => (st, [], Ctl.fault)
      | some path =>
        if env.chdir then (st, [MainEvent.chdir path, MainEvent.freeCommand], Ctl.next)
        else
          ({ st with errnoRange := false },
            [MainEvent.chdir path, MainEvent.osError, MainEvent.freeCommand], Ctl.next)
  else if name.take 4 = "wait".toList then
    let argc := p.argc
    let cells := (List.range (argc - 1)).map env.garbage
    let r := parsePids (p.args.getD 1 Slot.garbage) ((p.args.take argc).drop 1) 1 cells
      st.errnoRange
    if r.2.2.2 = false ∨ (env.alloc k = false ∧ 0 < argc - 1) then (st, r.2.1, Ctl.fault)
    else
      let w := waitForPIDs env.wait env.waitFuel st.reg r.1
      let ev := r.2.1 ++ [MainEvent.waitForPIDs r.1 w.1.trace w.2]
      match w.2 with
      | none => ({ reg := w.1.reg, errnoRange := r.2.2.1 }, ev, Ctl.outOfFuel)
      | some WaitExit.outOfBounds => ({ reg := w.1.reg, errnoRange := r.2.2.1 }, ev, Ctl.fault)
      | some WaitExit.pollError =>
        ({ reg := w.1.reg, errnoRange := false }, ev ++ [MainEvent.freeCommand], Ctl.next)
      | some _ =>
        ({ reg := w.1.reg, errnoRange := r.2.2.1 }, ev ++ [MainEvent.freeCommand], Ctl.next)
  else launchProgram st command env.fork

/-- The dispatch of `main` on `command.count` after a successful `parseCommand`. -/
def dispatch (env : MainEnv) (k : Nat) (st : ShellState) (command : command_t) :
    ShellState × List MainEvent × Ctl :=
  if command.count = 1 then
    match command.programs[0]? with
    | none => (st, [], Ctl.fault)
    | some p =>
      match p.args[0]? with
      | some (Slot.str name) => runSingle env k st command p name
      | _ => (st, [], Ctl.fault)
  else if command.count = 2 then launchProgramWithPipe st command env.fork
  else (st, [MainEvent.pipeLength command.count, MainEvent.freeCommand], Ctl.next)

/-- One iteration of the `while(1)` loop of `main`. -/
def mainStep (env : MainEnv) (st : ShellState) : ShellState × List MainEvent × Ctl :=
  if !env.alloc 0 then (st, [MainEvent.osError], Ctl.exit 1)
  else if !env.getcwd then (st, [MainEvent.osError], Ctl.exit 1)
  else
    match env.fgets with
    | none => (st, [], Ctl.exit 0)
    | some inputBuffer =>
      if strlen inputBuffer = 0 then (st, [], Ctl.fault)
      else
        let buf0 := inputBuffer.set (strlen inputBuffer - 1) NUL
        let t := strtrim buf0
        if strlen t.2 = 0 then (st, [], Ctl.next)
        else
          match parseCommand env.alloc 1 st.reg.processCount t.2 t.1 with
          | Res.ok (command, k) => dispatch env k st command
          | Res.failed => (st, [MainEvent.freeCommand], Ctl.exit 1)
          | Res.fault => (st, [], Ctl.fault)
          | Res.outOfFuel => (st, [], Ctl.outOfFuel)

/-- Whether an event is a call of one of the two launch functions. -/
def MainEvent.isLaunch : MainEvent → Bool
  | MainEvent.launchProgram _ => true
  | MainEvent.launchProgramWithPipe _ => true
  | _ => false

/-! ## The parser in terms of the text of the line

The definitions of this section describe strings as lists of characters
without memory; they are what the results of `strtrim`, `parseProgram` and
`parseCommand` are compared with. -/

/-- A text without its leading and its trailing whitespace. -/
def trimStr (s : List Char) : List Char :=
  (s.dropWhile isspace).rdropWhile isspace

/-- The pieces of a text between the occurrences of the character `d`, in
textual order; a text with `n` occurrences has `n + 1` pieces. -/
def pieces (d : Char) : List Char → List (List Char)
  | [] => [[]]
  | c :: cs =>
    if c = d then [] :: pieces d cs
    else (c :: (pieces d cs).headD []) :: (pieces d cs).tail

/-- The argument tokens of a stage text: the pieces between space characters,
each without its leading and trailing whitespace, the empty ones left out. -/
def argTokens (s : List Char) : List (List Char) :=
  ((pieces ' ' s).map trimStr).filter (fun t => t ≠ [])

/-- The `program_t` that holds the tokens `toks`: `argc` strings followed by
`NULL`, in an array of `argc + 1` cells. -/
def programOf (toks : List (List Char)) : program_t :=
  ⟨toks.map Slot.str ++ [Slot.null], toks.length, toks.length + 1⟩

/-- The `program_t` inside the loop of `parseProgram` after the tokens `toks`
have been stored: the last cell is not written yet. -/
def openProgram (toks : List (List Char)) : program_t :=
  ⟨toks.map Slot.str ++ [Slot.garbage], toks.length, toks.length + 1⟩

/-- The pieces that are left for a `strsep` loop on `stringp`. -/
def piecesOf (d : Char) (stringp : Option (List Char)) : List (List Char) :=
  match stringp with
  | none => []
  | some m => pieces d (cstr m)

/-- Whether the allocation requests number `k`, ..., `k + n - 1` all succeed. -/
def allocOK (alloc : Nat → Bool) : Nat → Nat → Bool
  | _, 0 => true
  | k, n + 1 => alloc k && allocOK alloc (k + 1) n

/-- The stage of a pipeline built from the stage text `t`: the `program_t`
that holds the argument tokens of `t`. -/
def stageOf (t : List Char) : program_t :=
  programOf (argTokens t)

/-- The `command_t` after the stages `progs` have been stored in `command`. -/
def extendCommand (command : command_t) (progs : List program_t) : command_t :=
  ⟨command.programs ++ progs, command.count + progs.length,
    2 * ((command.count + progs.length) / 2) + 2, command.background⟩

/-- The `command_t` that `parseCommand` builds from the text `s` of a line:
one stage per piece between `|`, after the last character has been taken away
when the line is a background request. -/
def commandOf (background : Bool) (s : List Char) : command_t :=
  extendCommand ⟨[], 0, 2, background⟩
    ((pieces '|' (if background then s.dropLast else s)).map stageOf)

/-- The registry after eight background jobs, with the ids 101, ..., 108, have
been registered from the initial state. -/
def fullRegistry : Registry :=
  [101, 102, 103, 104, 105, 106, 107, 108].foldl registerProcess initRegistry

/-- An environment of `main` in which every allocation, `getcwd` and `chdir`
succeed, `fgets` delivers `line` followed by a newline, `fork` returns 4242, no
interrupt arrives and `waitpid` reports no termination. -/
def calmEnv (line : String) : MainEnv :=
  ⟨fun _ => true, true, some (line.toList ++ ['\n', NUL]), 4242, true, fun _ => 0,
    ⟨fun _ => false, fun _ _ => 0⟩, 0⟩

/-! ## Inputs and notions used by the statements about `main` and `waitForPIDs` -/

/-- The registry with the two background jobs 100 and 200 registered. -/
def twoJobs : Registry :=
  registerProcess (registerProcess initRegistry 100) 200

/-- An environment of `waitForPIDs` without interrupt in which the process 100
keeps running (`waitpid` returns 0 for it) and every other process has
terminated (`waitpid` returns its id). -/
def firstRunsEnv : WaitEnv :=
  ⟨fun _ => false, fun _ pid => if pid = 100 then 0 else pid⟩

/-- The environment `calmEnv` at the end of the input: `fgets` returns `NULL`. -/
def eofEnv : MainEnv :=
  { calmEnv "" with fgets := none }

/-- The ids whose termination a trace of `waitForPIDs` reports, in order. -/
def terminatedIds : List WaitEvent → List Int
  | [] => []
  | WaitEvent.terminated id :: rest => id :: terminatedIds rest
  | _ :: rest => terminatedIds rest

/-- The text of the command line that `main` hands to `parseCommand` when
`fgets` has filled `inputBuffer`: the last character is cut off and the rest is
seen through `strtrim`. -/
def commandLine (inputBuffer : List Char) : List Char :=
  cstr (strtrimView (inputBuffer.set (strlen inputBuffer - 1) NUL))

/-- The maximal runs of non-space characters of a text, in textual order: the
non-empty pieces between space characters. -/
def nonSpaceRuns (s : List Char) : List (List Char) :=
  (pieces ' ' s).filter (fun t => t ≠ [])

/-- An environment of `waitForPIDs` in which every polled process has
terminated and the interrupt is observed from the second evaluation of the
loop condition on. -/
def reapThenInterruptEnv : WaitEnv :=
  ⟨fun k => decide (1 ≤ k), fun _ pid => pid⟩

/-- What holds of the state of `waitForPIDs` throughout a call that started in
the registry `r`: the registry is `r` after `unregisterProcess` of the ids
reported terminated, in order, and each of them was reported by `waitpid`. -/
def WaitInv (env : WaitEnv) (r : Registry) (s : WaitState) : Prop :=
  s.reg = (terminatedIds s.trace).foldl unregisterProcess r ∧
  ∀ x ∈ terminatedIds s.trace, ∃ k, 0 < env.waitpid k x

/-! ## `parseProgram` with a record of its writes into `args` -/

/-- One write `params->args[params->argc] = ...` of `parseProgram`: the values
of `argc` and of `malloced` and the number of cells of the array `args` at the
moment of the write. -/
structure ArgsWrite where
  argc : Nat
  malloced : Nat
  cells : Nat
deriving DecidableEq

/-- The loop of `parseProgram` (see `parseProgramLoop`) together with the
record of every write into `args` it makes, in order: the store of the result
of `malloc` for each token and the final store of `NULL`. -/
def parseProgramLoopLog (alloc : Nat → Bool) :
    Nat → Nat → program_t → Option (List Char) → Res (program_t × Nat) × List ArgsWrite
  | 0, _, _, _ => (Res.outOfFuel, [])
  | fuel + 1, k, params, programString =>
    match strsep programString ' ' with
    | (none, _) =>
      if params.argc < params.args.length then
        (Res.ok ({ params with args := params.args.set params.argc Slot.null }, k),
          [⟨params.argc, params.malloced, params.args.length⟩])
      else (Res.fault, [⟨params.argc, params.malloced, params.args.length⟩])
    | (some tok, rest) =>
      let token := strtrimView tok
      if strlen token > 0 then
        if params.argc < params.args.length then
          if alloc k then
            let p1 : program_t :=
              { params with
                args := params.args.set params.argc (Slot.str (cstr token))
                argc := params.argc + 1 }
            if p1.argc = p1.malloced then
              if alloc (k + 1) then
                let r := parseProgramLoopLog alloc fuel (k + 2)
                  { p1 with
                    malloced := p1.malloced + 1
                    args := reallocSlots p1.args (p1.malloced + 1) } rest
                (r.1, ⟨params.argc, params.malloced, params.args.length⟩ :: r.2)
              else (Res.failed, [⟨params.argc, params.malloced, params.args.length⟩])
            else
              let r := parseProgramLoopLog alloc fuel (k + 1) p1 rest
              (r.1, ⟨params.argc, params.malloced, params.args.length⟩ :: r.2)
          else (Res.failed, [⟨params.argc, params.malloced, params.args.length⟩])
        else (Res.fault, [⟨params.argc, params.malloced, params.args.length⟩])
      else parseProgramLoopLog alloc fuel k params rest

/-- Source function `parseProgram` together with the record of its writes into
`args`. -/
def parseProgramLog (alloc : Nat → Bool) (k : Nat) (programString : List Char) :
    Res (program_t × Nat) × List ArgsWrite :=
  if alloc k then
    parseProgramLoopLog alloc (programString.length + 2) (k + 1)
      ⟨[Slot.garbage], 0, 1⟩ (some programString)
  else (Res.failed, [])

/-- What holds of `params` at every turn of the loop of `parseProgram`: the
array has `malloced` cells and `argc` is the index of one of them. -/
def ArgsInv (p : program_t) : Prop :=
  p.args.length = p.malloced ∧ p.argc < p.malloced

/-- The outcome `res` of a loop iteration of `main` that ran the `wait` handler
to its call of `waitForPIDs`: after the reports of invalid ids, `waitForPIDs`
was called on the array `pids`; either it has not returned within the fuel of
the environment, or it returned, the command was freed, the registry is the
one it left and the next iteration starts. -/
def WaitHandled (env : MainEnv) (st : ShellState)
    (res : ShellState × List MainEvent × Ctl) : Prop :=
  ∃ reports pids,
    (∀ e ∈ reports, ∃ t, e = MainEvent.notValidPid t) ∧
    (((waitForPIDs env.wait env.waitFuel st.reg pids).2 = none ∧
        res.2.1 = reports ++
          [MainEvent.waitForPIDs pids
            (waitForPIDs env.wait env.waitFuel st.reg pids).1.trace none] ∧
        res.2.2 = Ctl.outOfFuel) ∨
      (∃ x, (waitForPIDs env.wait env.waitFuel st.reg pids).2 = some x ∧
        res.2.1 = reports ++
          [MainEvent.waitForPIDs pids
            (waitForPIDs env.wait env.waitFuel st.reg pids).1.trace (some x),
            MainEvent.freeCommand] ∧
        res.1.reg = (waitForPIDs env.wait env.waitFuel st.reg pids).1.reg ∧
        res.2.2 = Ctl.next))


/-! ## Facts about the job registry -/

theorem isProcessLoop_iff (id : Int) (ps : List Int) :
    isProcessLoop id ps = true ↔ id ∈ ps := by
  induction ps with
  | nil => simp [isProcessLoop]
  | cons p ps ih =>
    unfold isProcessLoop
    by_cases h : p = id
    · simp [h]
    · have h2 : ¬ id = p := fun e => h e.symm
      simp [h, h2, ih]

theorem isProcess_iff_mem (r : Registry) (id : Int) :
    isProcess r id = true ↔ id ∈ r.processes :=
  isProcessLoop_iff id r.processes

theorem liveCount_le (ps : List Int) : liveCount ps ≤ ps.length :=
  List.length_filter_le _ ps

theorem liveCount_lt_of_mem (ps : List Int) (h : (-1 : Int) ∈ ps) :
    liveCount ps < ps.length := by
  induction ps with
  | nil => simp at h
  | cons p ps ih =>
    by_cases hp : p = -1
    · have := liveCount_le ps
      simp [liveCount, hp] at this ⊢
      omega
    · have hm : (-1 : Int) ∈ ps := by
        rcases List.mem_cons.mp h with h1 | h1
        · exact absurd h1.symm hp
        · exact h1
      have := ih hm
      simp [liveCount, hp] at this ⊢
      omega

theorem mem_of_liveCount_lt (ps : List Int) (h : liveCount ps < ps.length) :
    (-1 : Int) ∈ ps := by
  induction ps with
  | nil => simp at h
  | cons p ps ih =>
    by_cases hp : p = -1
    · simp [hp]
    · have : liveCount ps < ps.length := by
        simp [liveCount, hp] at h ⊢
        omega
      exact List.mem_cons_of_mem _ (ih this)

theorem liveCount_registerLoop (id : Int) (ps : List Int) (hid : id ≠ -1)
    (h : (-1 : Int) ∈ ps) : liveCount (registerLoop id ps) = liveCount ps + 1 := by
  induction ps with
  | nil => simp at h
  | cons p ps ih =>
    unfold registerLoop
    by_cases hp : p = -1
    · simp [liveCount, hp, hid]
    · have hm : (-1 : Int) ∈ ps := by
        rcases List.mem_cons.mp h with h1 | h1
        · exact absurd h1.symm hp
        · exact h1
      have := ih hm
      simp [liveCount, hp] at this ⊢
      exact this

theorem liveCount_unregisterLoop (id : Int) (ps : List Int) (hid : id ≠ -1)
    (h : id ∈ ps) : liveCount (unregisterLoop id ps) + 1 = liveCount ps := by
  induction ps with
  | nil => simp at h
  | cons p ps ih =>
    unfold unregisterLoop
    by_cases hp : p = id
    · subst hp
      simp [liveCount, hid]
    · have hm : id ∈ ps := by
        rcases List.mem_cons.mp h with h1 | h1
        · exact absurd h1.symm hp
        · exact h1
      have := ih hm
      rw [if_neg hp]
      by_cases hq : p = -1
      · simp [liveCount, hq] at this ⊢
        exact this
      · simp [liveCount, hq] at this ⊢
        exact this

theorem liveSlots_le (r : Registry) : liveSlots r ≤ MAX_PROCESSES := by
  have := liveCount_le r.processes
  rw [r.size_eq] at this
  exact this

theorem registerProcess_inv (r : Registry) (id : Int) (hinv : RegistryInv r)
    (hid : id ≠ -1) (hc : r.processCount < MAX_PROCESSES) :
    RegistryInv (registerProcess r id) := by
  unfold RegistryInv at *
  have hlt : liveCount r.processes < r.processes.length := by
    rw [r.size_eq]
    have : liveCount r.processes = r.processCount := hinv.symm
    omega
  have h1 := liveCount_registerLoop id r.processes hid (mem_of_liveCount_lt _ hlt)
  have h2 : liveSlots (registerProcess r id) = liveCount r.processes + 1 := h1
  have h3 : liveSlots r = liveCount r.processes := rfl
  rw [h2]
  show (r.processCount + 1) % SIZE_MOD = _
  have : r.processCount + 1 < SIZE_MOD := by
    have : MAX_PROCESSES < SIZE_MOD := by decide
    omega
  rw [Nat.mod_eq_of_lt this, hinv, h3]

theorem unregisterProcess_inv (r : Registry) (id : Int) (hinv : RegistryInv r)
    (hh : Held r id) : RegistryInv (unregisterProcess r id) := by
  unfold RegistryInv at *
  have h1 := liveCount_unregisterLoop id r.processes hh.1 hh.2
  have h2 : liveSlots (unregisterProcess r id) = liveCount (unregisterLoop id r.processes) := rfl
  have h3 : liveSlots r = liveCount r.processes := rfl
  have hle := liveSlots_le r
  have hM : MAX_PROCESSES < SIZE_MOD := by decide
  show (r.processCount + (SIZE_MOD - 1)) % SIZE_MOD = _
  rw [h2]
  have hpos : 0 < r.processCount := by omega
  have e : r.processCount + (SIZE_MOD - 1) = (r.processCount - 1) + SIZE_MOD := by omega
  rw [e, Nat.add_mod_right, Nat.mod_eq_of_lt (by omega)]
  omega

/-- C8: the registry invariant "processCount is the number of non-empty slots"
holds after the initialisation in main, is preserved by registerProcess of a
valid id below capacity and by unregisterProcess of an id held in a slot, and
bounds processCount by MAX_PROCESSES. -/
theorem registry_invariant :
    RegistryInv initRegistry ∧
    (∀ (r : Registry) (id : Int), RegistryInv r → id ≠ -1 →
      r.processCount < MAX_PROCESSES → RegistryInv (registerProcess r id)) ∧
    (∀ (r : Registry) (id : Int), RegistryInv r → Held r id →
      RegistryInv (unregisterProcess r id)) ∧
    (∀ r : Registry, RegistryInv r → r.processCount ≤ MAX_PROCESSES) := by
  refine ⟨by decide, registerProcess_inv, unregisterProcess_inv, ?_⟩
  intro r h
  unfold RegistryInv at h
  rw [h]
  exact liveSlots_le r

theorem registry_invariant_witness :
    RegistryInv (unregisterProcess (registerProcess initRegistry 4242) 4242) ∧
    (registerProcess initRegistry 4242).processCount ≤ MAX_PROCESSES :=
  ⟨registry_invariant.2.2.1 (registerProcess initRegistry 4242) 4242
      (registry_invariant.2.1 initRegistry 4242 registry_invariant.1 (by decide) (by decide))
      (by decide),
    registry_invariant.2.2.2 (registerProcess initRegistry 4242)
      (registry_invariant.2.1 initRegistry 4242 registry_invariant.1 (by decide) (by decide))⟩


/-! ## Facts about `killall`, `isProcess` and `waitForPIDs` -/

theorem isProcess_iff_held (r : Registry) (id : Int) (hid : id ≠ -1) :
    isProcess r id = true ↔ Held r id := by
  rw [isProcess_iff_mem]
  exact ⟨fun h => ⟨hid, h⟩, fun h => h.2⟩

theorem isProcess_empty_marker (r : Registry) (h : r.processCount < MAX_PROCESSES)
    (hinv : RegistryInv r) : isProcess r (-1) = true := by
  rw [isProcess_iff_mem]
  apply mem_of_liveCount_lt
  rw [r.size_eq]
  have : r.processCount = liveCount r.processes := hinv
  omega

theorem not_mem_registerLoop (x id : Int) (ps : List Int) (hx : x ≠ id)
    (h : x ∉ ps) : x ∉ registerLoop id ps := by
  induction ps with
  | nil => simp [registerLoop]
  | cons p ps ih =>
    have h1 : x ≠ p := fun e => h (e ▸ List.mem_cons_self _ _)
    have h2 : x ∉ ps := fun e => h (List.mem_cons_of_mem _ e)
    unfold registerLoop
    split
    · simp [hx, h2]
    · simp [h1, ih h2]

theorem not_mem_unregisterLoop (x id : Int) (ps : List Int) (hx : x ≠ -1)
    (h : x ∉ ps) : x ∉ unregisterLoop id ps := by
  induction ps with
  | nil => simp [unregisterLoop]
  | cons p ps ih =>
    have h1 : x ≠ p := fun e => h (e ▸ List.mem_cons_self _ _)
    have h2 : x ∉ ps := fun e => h (List.mem_cons_of_mem _ e)
    unfold unregisterLoop
    split
    · simp [hx, h2]
    · simp [h1, ih h2]

theorem reachable_no_zero (r : Registry) (h : Reachable r) : (0 : Int) ∉ r.processes := by
  induction h with
  | init => decide
  | register r id _ hid _ ih =>
    exact not_mem_registerLoop 0 id r.processes (by omega) ih
  | unregister r id _ _ _ ih =>
    exact not_mem_unregisterLoop 0 id r.processes (by decide) ih

/-- In every reachable registry state `killall` signals the content of every
slot, the `-1` of an empty slot included. -/
theorem killall_reachable (r : Registry) (h : Reachable r) : killall r = r.processes := by
  unfold killall
  rw [List.filter_eq_self]
  intro a ha
  have := reachable_no_zero r h
  have : a ≠ 0 := fun e => this (e ▸ ha)
  simpa using this

/-- C3 (the code departs from the claim): in the registry state right after the
initialisation in main, where no slot holds an id, killall calls
kill(-1, SIGTERM) once for each of the eight empty slots; with one job
registered it signals that job and seven times the id -1. -/
theorem killall_signals_empty_slots :
    killall initRegistry = [-1, -1, -1, -1, -1, -1, -1, -1] ∧
    killall (registerProcess initRegistry 4242) = [4242, -1, -1, -1, -1, -1, -1, -1] := by
  decide

/-- When the flag `abortWait` stays clear and the cell `pids[i]` holds `-1`, an
iteration of the polling loop changes nothing: `i` is not advanced. -/
theorem waitStep_inert (env : WaitEnv) (argc k : Nat) (s : WaitState)
    (ha : env.abortWait k = false) (hp : s.pids[s.i]? = some (-1)) :
    waitStep env argc k s = (s, none) := by
  unfold waitStep
  simp [ha, hp]

theorem waitLoop_inert (env : WaitEnv) (argc : Nat) (s : WaitState)
    (ha : ∀ k, env.abortWait k = false) (hp : s.pids[s.i]? = some (-1)) :
    ∀ fuel k, waitLoop env argc fuel k s = (s, none) := by
  intro fuel
  induction fuel with
  | zero => intro k; rfl
  | succ n ih =>
    intro k
    unfold waitLoop
    rw [waitStep_inert env argc k s (ha k) hp]
    exact ih (k + 1)

/-- C1 (the code departs from the claim): with the job 100 registered, the
wait set (5, 100) of a never-registered id followed by the registered one makes
waitForPIDs report 5 and then spin: whatever waitpid would answer and however
many iterations are run, without an interrupt the loop has not returned, has
polled nothing (the trace holds the report of 5 only) and 100 is still
registered. -/
theorem waitForPIDs_invalid_first_never_polls (wp : Nat → Int → Int) (n : Nat) :
    waitForPIDs ⟨fun _ => false, wp⟩ n (registerProcess initRegistry 100) [5, 100] =
      (⟨registerProcess initRegistry 100, [-1, 100], 0, 1, [WaitEvent.notChild 5]⟩, none) := by
  have hv : validatePids (registerProcess initRegistry 100) [5, 100] =
      ([-1, 100], 1, [WaitEvent.notChild 5]) := by decide
  unfold waitForPIDs
  simp only [hv]
  rw [if_neg (by decide)]
  exact waitLoop_inert _ _ _ (fun _ => rfl) (by rfl) n 0

/-- C9 (the code departs from the claim): the id -1 was never registered, yet
isProcess(-1) is true in the initial registry (every empty slot holds -1), the
validation pass of waitForPIDs does not reject it, and the polling loop then
never returns without an interrupt. -/
theorem isProcess_accepts_empty_marker :
    isProcess initRegistry (-1) = true ∧
    validatePids initRegistry [-1] = ([-1], 0, []) ∧
    ∀ (wp : Nat → Int → Int) (n : Nat),
      (waitForPIDs ⟨fun _ => false, wp⟩ n initRegistry [-1]).2 = none := by
  refine ⟨by decide, by decide, ?_⟩
  intro wp n
  have hv : validatePids initRegistry [-1] = ([-1], 0, []) := by decide
  unfold waitForPIDs
  simp only [hv]
  rw [if_neg (by decide)]
  rw [waitLoop_inert _ _ _ (fun _ => rfl) (by rfl) n 0]

/-! ## Facts about character memory and `strtrim` -/

theorem isspace_NUL : isspace NUL = false := by decide

theorem rd_nil (i : Nat) : rd [] i = NUL := by simp [rd]

theorem rd_cons_zero (c : Char) (cs : List Char) : rd (c :: cs) 0 = c := by simp [rd]

theorem rd_cons_succ (c : Char) (cs : List Char) (i : Nat) :
    rd (c :: cs) (i + 1) = rd cs i := by simp [rd]

theorem rd_drop (m : List Char) (k i : Nat) : rd (m.drop k) i = rd m (k + i) := by
  simp [rd, List.getElem?_drop]

theorem rd_set_ne (m : List Char) (k i : Nat) (c : Char) (h : k ≠ i) :
    rd (m.set k c) i = rd m i := by
  simp [rd, List.getElem?_set_ne h]

theorem strlen_eq_length_cstr (m : List Char) : strlen m = (cstr m).length := by
  induction m with
  | nil => rfl
  | cons c cs ih =>
    unfold strlen cstr
    split <;> simp [ih]

theorem rd_strlen (m : List Char) : rd m (strlen m) = NUL := by
  induction m with
  | nil => rfl
  | cons c cs ih =>
    unfold strlen
    split
    · next h => simp [rd, h]
    · rw [rd_cons_succ]; exact ih

theorem rd_ne_NUL_of_lt (m : List Char) (i : Nat) (h : i < strlen m) : rd m i ≠ NUL := by
  induction m generalizing i with
  | nil => simp [strlen] at h
  | cons c cs ih =>
    unfold strlen at h
    split at h
    · omega
    · next hc =>
      cases i with
      | zero => rw [rd_cons_zero]; exact hc
      | succ j => rw [rd_cons_succ]; exact ih j (by omega)

theorem strlen_pos_of_rd (m : List Char) (h : rd m 0 ≠ NUL) : 0 < strlen m := by
  cases m with
  | nil => simp [rd_nil] at h
  | cons c cs =>
    rw [rd_cons_zero] at h
    unfold strlen
    simp [h]

theorem strlen_set (m : List Char) (k : Nat) (h : k ≤ strlen m) :
    strlen (m.set k NUL) = k := by
  induction m generalizing k with
  | nil =>
    simp [strlen] at h
    subst h
    rfl
  | cons c cs ih =>
    cases k with
    | zero => simp [strlen]
    | succ j =>
      unfold strlen at h
      split at h
      · omega
      · next hc =>
        simp only [List.set_cons_succ]
        unfold strlen
        rw [if_neg hc, ih j (by omega)]

theorem cstr_set (m : List Char) (k : Nat) (h : k ≤ strlen m) :
    cstr (m.set k NUL) = (cstr m).take k := by
  induction m generalizing k with
  | nil => simp [cstr]
  | cons c cs ih =>
    cases k with
    | zero => simp [cstr]
    | succ j =>
      unfold strlen at h
      split at h
      · omega
      · next hc =>
        simp only [List.set_cons_succ]
        unfold cstr
        rw [if_neg hc, if_neg hc, List.take_succ_cons, ih j (by omega)]

theorem cstr_drop (m : List Char) (k : Nat) (h : k ≤ strlen m) :
    cstr (m.drop k) = (cstr m).drop k := by
  induction m generalizing k with
  | nil => simp [cstr]
  | cons c cs ih =>
    cases k with
    | zero => simp
    | succ j =>
      unfold strlen at h
      split at h
      · omega
      · next hc =>
        simp only [List.drop_succ_cons]
        rw [ih j (by omega)]
        conv_rhs => unfold cstr
        rw [if_neg hc, List.drop_succ_cons]

theorem skipSpaces_le_strlen (m : List Char) : skipSpaces m ≤ strlen m := by
  induction m with
  | nil => simp [skipSpaces]
  | cons c cs ih =>
    unfold skipSpaces strlen
    by_cases hs : isspace c = true
    · have hc : c ≠ NUL := by
        intro e; rw [e, isspace_NUL] at hs; exact Bool.false_ne_true hs
      simp [hs, hc, ih]
    · simp [hs]

theorem not_isspace_rd_skipSpaces (m : List Char) :
    isspace (rd m (skipSpaces m)) = false := by
  induction m with
  | nil => simp [skipSpaces, rd_nil, isspace_NUL]
  | cons c cs ih =>
    unfold skipSpaces
    by_cases hs : isspace c = true
    · simp only [hs, if_true, rd_cons_succ]; exact ih
    · simp only [hs, rd_cons_zero]; simpa using hs

theorem skipSpaces_eq_zero (m : List Char) (h : isspace (rd m 0) = false) :
    skipSpaces m = 0 := by
  cases m with
  | nil => rfl
  | cons c cs =>
    rw [rd_cons_zero] at h
    simp [skipSpaces, h]

theorem trimEnd_le (m : List Char) (n : Nat) : trimEnd m n ≤ n := by
  induction n with
  | zero => simp [trimEnd]
  | succ e ih =>
    unfold trimEnd
    split
    · omega
    · omega

theorem trimEnd_congr (m v : List Char) (n : Nat) (h : ∀ i, i ≤ n → rd v i = rd m i) :
    trimEnd v n = trimEnd m n := by
  induction n with
  | zero => simp [trimEnd]
  | succ e ih =>
    unfold trimEnd
    rw [h (e + 1) (Nat.le_refl _), ih (fun i hi => h i (by omega))]

theorem trimEnd_idem (m : List Char) (n : Nat) : trimEnd m (trimEnd m n) = trimEnd m n := by
  induction n with
  | zero => simp [trimEnd]
  | succ e ih =>
    by_cases hs : isspace (rd m (e + 1)) = true
    · have : trimEnd m (e + 1) = trimEnd m e := by simp [trimEnd, hs]
      rw [this, ih]
    · have : trimEnd m (e + 1) = e + 1 := by simp [trimEnd, hs]
      rw [this, this]

/-- The view returned by `strtrim` in the case that it writes a terminator. -/
theorem strtrimView_of_ne (m : List Char) (h : rd m (skipSpaces m) ≠ NUL) :
    strtrimView m =
      (m.drop (skipSpaces m)).set
        (trimEnd (m.drop (skipSpaces m)) (strlen (m.drop (skipSpaces m)) - 1) + 1) NUL := by
  unfold strtrimView strtrim
  simp only [h, if_false]
  rw [List.set_drop, Nat.add_assoc]

theorem strtrimView_of_eq (m : List Char) (h : rd m (skipSpaces m) = NUL) :
    strtrimView m = m.drop (skipSpaces m) := by
  unfold strtrimView strtrim
  simp [h]

theorem strtrim_fixed (w : List Char) (e : Nat) (h0 : isspace (rd w 0) = false)
    (h1 : rd w 0 ≠ NUL) (he : e + 1 ≤ strlen w) (hi : trimEnd w e = e) :
    strtrim (w.set (e + 1) NUL) = (0, w.set (e + 1) NUL) := by
  have hv0 : rd (w.set (e + 1) NUL) 0 = rd w 0 := rd_set_ne w (e + 1) 0 NUL (by omega)
  have hsk : skipSpaces (w.set (e + 1) NUL) = 0 :=
    skipSpaces_eq_zero _ (by rw [hv0]; exact h0)
  have hlen : strlen (w.set (e + 1) NUL) = e + 1 := strlen_set w (e + 1) he
  have htr : trimEnd (w.set (e + 1) NUL) e = e := by
    rw [trimEnd_congr w _ e (fun i hi => rd_set_ne w (e + 1) i NUL (by omega)), hi]
  unfold strtrim
  simp only [hsk, List.drop_zero, hv0, h1, if_false, hlen, Nat.add_sub_cancel, htr,
    Nat.zero_add, List.set_set]

/-- C10: strtrim is idempotent.  Applied to the view that strtrim returned, it
returns the same pointer (offset 0) and leaves the memory as it is; the string
seen through the view is therefore the same. -/
theorem strtrim_idempotent (m : List Char) :
    strtrim (strtrimView m) = (0, strtrimView m) ∧
    strtrimView (strtrimView m) = strtrimView m ∧
    cstr (strtrimView (strtrimView m)) = cstr (strtrimView m) := by
  have key : strtrim (strtrimView m) = (0, strtrimView m) := by
    by_cases h : rd m (skipSpaces m) = NUL
    · rw [strtrimView_of_eq m h]
      have h0 : rd (m.drop (skipSpaces m)) 0 = NUL := by rw [rd_drop]; exact h
      have hsk : skipSpaces (m.drop (skipSpaces m)) = 0 :=
        skipSpaces_eq_zero _ (by rw [h0]; exact isspace_NUL)
      unfold strtrim
      simp [hsk, h0]
    · rw [strtrimView_of_ne m h]
      have hw0 : rd (m.drop (skipSpaces m)) 0 = rd m (skipSpaces m) := by rw [rd_drop]; rfl
      have hpos := strlen_pos_of_rd (m.drop (skipSpaces m)) (by rw [hw0]; exact h)
      have hle := trimEnd_le (m.drop (skipSpaces m)) (strlen (m.drop (skipSpaces m)) - 1)
      exact strtrim_fixed _ _ (by rw [hw0]; exact not_isspace_rd_skipSpaces m)
        (by rw [hw0]; exact h) (by omega) (trimEnd_idem _ _)
  have hv : strtrimView (strtrimView m) = strtrimView m := by
    show (strtrim (strtrimView m)).2.drop (strtrim (strtrimView m)).1 = _
    rw [key]
    rfl
  exact ⟨key, hv, by rw [hv]⟩

/-! ## `strtrim`, `strsep` and the parser in terms of the text -/

theorem rd_of_cstr (m : List Char) (i : Nat) (h : i < strlen m) :
    rd m i = rd (cstr m) i := by
  induction m generalizing i with
  | nil => rfl
  | cons c cs ih =>
    unfold strlen at h
    split at h
    · omega
    · next hc =>
      unfold cstr
      rw [if_neg hc]
      cases i with
      | zero => simp [rd_cons_zero]
      | succ j => rw [rd_cons_succ, rd_cons_succ]; exact ih j (by omega)

theorem NUL_not_mem_cstr (m : List Char) : NUL ∉ cstr m := by
  induction m with
  | nil => simp [cstr]
  | cons c cs ih =>
    unfold cstr
    split
    · simp
    · next hc =>
      intro h
      rcases List.mem_cons.mp h with h1 | h1
      · exact hc h1.symm
      · exact ih h1

theorem cstr_of_not_mem (s : List Char) (h : NUL ∉ s) : cstr s = s := by
  induction s with
  | nil => rfl
  | cons c cs ih =>
    have hc : c ≠ NUL := fun e => h (e ▸ List.mem_cons_self _ _)
    unfold cstr
    rw [if_neg hc, ih (fun e => h (List.mem_cons_of_mem _ e))]

theorem cstr_append_NUL (s rest : List Char) (h : NUL ∉ s) :
    cstr (s ++ NUL :: rest) = s := by
  induction s with
  | nil => simp [cstr]
  | cons c cs ih =>
    have hc : c ≠ NUL := fun e => h (e ▸ List.mem_cons_self _ _)
    simp only [List.cons_append]
    unfold cstr
    rw [if_neg hc, ih (fun e => h (List.mem_cons_of_mem _ e))]

theorem cstr_cstr (m : List Char) : cstr (cstr m) = cstr m :=
  cstr_of_not_mem _ (NUL_not_mem_cstr m)

theorem skipSpaces_cstr (m : List Char) : skipSpaces m = skipSpaces (cstr m) := by
  induction m with
  | nil => rfl
  | cons c cs ih =>
    by_cases hc : c = NUL
    · subst hc
      simp [skipSpaces, cstr, isspace_NUL]
    · unfold cstr
      rw [if_neg hc]
      unfold skipSpaces
      rw [ih]

theorem drop_skipSpaces (s : List Char) : s.drop (skipSpaces s) = s.dropWhile isspace := by
  induction s with
  | nil => rfl
  | cons c cs ih =>
    unfold skipSpaces
    by_cases hs : isspace c = true
    · simp [hs, ih]
    · simp [hs]

theorem cstr_drop_skipSpaces (m : List Char) :
    cstr (m.drop (skipSpaces m)) = (cstr m).dropWhile isspace := by
  rw [cstr_drop m _ (skipSpaces_le_strlen m), skipSpaces_cstr, drop_skipSpaces]

theorem head_dropWhile_not_isspace (s : List Char) :
    isspace (rd (s.dropWhile isspace) 0) = false := by
  rw [← drop_skipSpaces, rd_drop]
  exact not_isspace_rd_skipSpaces s

/-- The second loop of `strtrim` finds the end of the text without trailing
whitespace, for a text that does not start with whitespace. -/
theorem take_trimEnd (w t : List Char) (h0 : isspace (rd t 0) = false)
    (hw : ∀ i, i < t.length → rd w i = rd t i) :
    ∀ e, e < t.length →
      t.take (trimEnd w e + 1) = (t.take (e + 1)).rdropWhile isspace := by
  intro e
  induction e with
  | zero =>
    intro he
    cases t with
    | nil => simp at he
    | cons c cs =>
      rw [rd_cons_zero] at h0
      have : List.take 1 (c :: cs) = [] ++ [c] := by simp
      simp only [trimEnd, Nat.zero_add]
      rw [this, List.rdropWhile_concat_neg]
      simp [h0]
  | succ e ih =>
    intro he
    have hget : t.take (e + 1 + 1) = t.take (e + 1) ++ [rd t (e + 1)] := by
      rw [List.take_succ]
      congr 1
      simp [rd, List.getElem?_eq_getElem he]
    unfold trimEnd
    rw [hw (e + 1) he]
    by_cases hs : isspace (rd t (e + 1)) = true
    · rw [if_pos hs, hget, List.rdropWhile_concat_pos _ _ _ hs]
      exact ih (by omega)
    · rw [if_neg hs, hget, List.rdropWhile_concat_neg _ _ _ hs]

/-- The string seen through the view that `strtrim` returns is the text of the
argument without its leading and trailing whitespace. -/
theorem cstr_strtrimView (m : List Char) : cstr (strtrimView m) = trimStr (cstr m) := by
  have hdrop := cstr_drop_skipSpaces m
  by_cases h : rd m (skipSpaces m) = NUL
  · rw [strtrimView_of_eq m h]
    have h0 : strlen (m.drop (skipSpaces m)) = 0 := by
      by_contra hne
      exact rd_ne_NUL_of_lt (m.drop (skipSpaces m)) 0 (by omega) (by rw [rd_drop]; exact h)
    have he : cstr (m.drop (skipSpaces m)) = [] := by
      rw [strlen_eq_length_cstr] at h0
      exact List.length_eq_zero.mp h0
    unfold trimStr
    rw [← hdrop, he]
    rfl
  · rw [strtrimView_of_ne m h]
    have hw0 : rd (m.drop (skipSpaces m)) 0 = rd m (skipSpaces m) := by rw [rd_drop]; rfl
    have hpos := strlen_pos_of_rd (m.drop (skipSpaces m)) (by rw [hw0]; exact h)
    have hle := trimEnd_le (m.drop (skipSpaces m)) (strlen (m.drop (skipSpaces m)) - 1)
    rw [cstr_set _ _ (by omega)]
    unfold trimStr
    rw [← hdrop]
    have hlen := strlen_eq_length_cstr (m.drop (skipSpaces m))
    have h0 : isspace (rd (cstr (m.drop (skipSpaces m))) 0) = false := by
      rw [hdrop]; exact head_dropWhile_not_isspace _
    have := take_trimEnd (m.drop (skipSpaces m)) (cstr (m.drop (skipSpaces m))) h0
      (fun i hi => rd_of_cstr _ i (by omega)) (strlen (m.drop (skipSpaces m)) - 1) (by omega)
    rw [this]
    congr 1
    apply List.take_of_length_le
    omega

theorem strlen_strtrimView (m : List Char) :
    strlen (strtrimView m) = (trimStr (cstr m)).length := by
  rw [strlen_eq_length_cstr, cstr_strtrimView]

/-! ## `strsep` and the loops of the parser -/

theorem pieces_ne_nil (d : Char) (s : List Char) : pieces d s ≠ [] := by
  cases s with
  | nil => simp [pieces]
  | cons c cs =>
    unfold pieces
    split <;> simp

theorem pieces_length_le (d : Char) (s : List Char) : (pieces d s).length ≤ s.length + 1 := by
  induction s with
  | nil => simp [pieces]
  | cons c cs ih =>
    unfold pieces
    split
    · simp only [List.length_cons]; omega
    · simp only [List.length_cons, List.length_tail]; omega

theorem pieces_cons_eq (d : Char) (cs : List Char) :
    pieces d (d :: cs) = [] :: pieces d cs := by
  simp [pieces]

theorem pieces_cons_ne (d c : Char) (cs : List Char) (h : c ≠ d) (p : List Char)
    (ps : List (List Char)) (hp : pieces d cs = p :: ps) :
    pieces d (c :: cs) = (c :: p) :: ps := by
  unfold pieces
  rw [if_neg h, hp]
  rfl

theorem findDelim_none (d : Char) (m : List Char) (h : findDelim d m = none) :
    pieces d (cstr m) = [cstr m] := by
  induction m with
  | nil => rfl
  | cons c cs ih =>
    unfold findDelim at h
    by_cases hc : c = NUL
    · simp [cstr, hc, pieces]
    · rw [if_neg hc] at h
      by_cases hd : c = d
      · rw [if_pos hd] at h
        exact absurd h (by simp)
      · rw [if_neg hd] at h
        have h1 : findDelim d cs = none := by
          cases hf : findDelim d cs with
          | none => rfl
          | some x => rw [hf] at h; simp at h
        unfold cstr
        rw [if_neg hc]
        exact pieces_cons_ne d c _ hd _ _ (ih h1)

theorem findDelim_some (d : Char) (m : List Char) (n : Nat) (h : findDelim d m = some n) :
    n < strlen m ∧
      pieces d (cstr m) = (cstr m).take n :: pieces d ((cstr m).drop (n + 1)) := by
  induction m generalizing n with
  | nil => simp [findDelim] at h
  | cons c cs ih =>
    unfold findDelim at h
    by_cases hc : c = NUL
    · rw [if_pos hc] at h
      exact absurd h (by simp)
    · rw [if_neg hc] at h
      unfold strlen cstr
      rw [if_neg hc, if_neg hc]
      by_cases hd : c = d
      · rw [if_pos hd] at h
        have hn : n = 0 := by simpa using h.symm
        subst hn
        refine ⟨by omega, ?_⟩
        subst hd
        simp [pieces_cons_eq]
      · rw [if_neg hd] at h
        cases hf : findDelim d cs with
        | none => rw [hf] at h; simp at h
        | some x =>
          rw [hf] at h
          have hn : n = x + 1 := by simpa using h.symm
          subst hn
          have := ih x hf
          refine ⟨by omega, ?_⟩
          simp only [List.take_succ_cons, List.drop_succ_cons]
          exact pieces_cons_ne d c _ hd _ _ this.2

/-- What `strsep` returns on a string, in terms of its pieces: the token holds
the first piece and the new `*stringp` the pieces behind it. -/
theorem strsep_some (d : Char) (m : List Char) :
    ∃ tok rest, strsep (some m) d = (some tok, rest) ∧
      piecesOf d (some m) = cstr tok :: piecesOf d rest := by
  cases hf : findDelim d m with
  | none =>
    refine ⟨m, none, ?_, ?_⟩
    · simp [strsep, hf]
    · simp [piecesOf, findDelim_none d m hf]
  | some n =>
    have h := findDelim_some d m n hf
    refine ⟨m.set n NUL, some (m.drop (n + 1)), ?_, ?_⟩
    · simp [strsep, hf]
    · simp only [piecesOf]
      rw [cstr_set m n (by omega), cstr_drop m (n + 1) (by omega)]
      exact h.2

theorem set_open_null (acc : List (List Char)) :
    (acc.map Slot.str ++ [Slot.garbage]).set acc.length Slot.null =
      acc.map Slot.str ++ [Slot.null] := by
  have : acc.length = (acc.map Slot.str).length + 0 := by simp
  rw [this, List.set_append_right _ _ (by simp)]
  simp

theorem set_open_str (acc : List (List Char)) (t : List Char) :
    (acc.map Slot.str ++ [Slot.garbage]).set acc.length (Slot.str t) =
      acc.map Slot.str ++ [Slot.str t] := by
  have : acc.length = (acc.map Slot.str).length + 0 := by simp
  rw [this, List.set_append_right _ _ (by simp)]
  simp

theorem reallocSlots_grow (xs : List Slot) (n : Nat) (h : xs.length = n) :
    reallocSlots xs (n + 1) = xs ++ [Slot.garbage] := by
  unfold reallocSlots
  subst h
  simp [List.take_of_length_le]

theorem allocOK_add_two (alloc : Nat → Bool) (k n : Nat) :
    allocOK alloc k (2 * (n + 1)) = (alloc k && (alloc (k + 1) && allocOK alloc (k + 2) (2 * n))) := by
  have : 2 * (n + 1) = (2 * n + 1) + 1 := by omega
  rw [this]
  rfl

theorem allocOK_all (alloc : Nat → Bool) (h : ∀ j, alloc j = true) :
    ∀ n k, allocOK alloc k n = true := by
  intro n
  induction n with
  | zero => intro k; rfl
  | succ n ih => intro k; simp [allocOK, h k, ih (k + 1)]

/-- The loop of `parseProgram` stores the argument tokens of the pieces that
are left, in order, and ends the array with `NULL`; it fails exactly when one
of its two allocation requests per token does. -/
theorem parseProgramLoop_spec (alloc : Nat → Bool) :
    ∀ (fuel k : Nat) (acc : List (List Char)) (sp : Option (List Char)),
      (piecesOf ' ' sp).length + 1 ≤ fuel →
      parseProgramLoop alloc fuel k (openProgram acc) sp =
        if allocOK alloc k
            (2 * (((piecesOf ' ' sp).map trimStr).filter (fun t => t ≠ [])).length) = true then
          Res.ok (programOf (acc ++ ((piecesOf ' ' sp).map trimStr).filter (fun t => t ≠ [])),
            k + 2 * (((piecesOf ' ' sp).map trimStr).filter (fun t => t ≠ [])).length)
        else Res.failed := by
  intro fuel
  induction fuel with
  | zero => intro k acc sp h; omega
  | succ n ih =>
    intro k acc sp hf
    cases sp with
    | none =>
      simp [parseProgramLoop, strsep, piecesOf, openProgram, programOf, allocOK, set_open_null]
    | some m =>
      obtain ⟨tok, rest, hs, hp⟩ := strsep_some ' ' m
      have hfuel : (piecesOf ' ' rest).length + 1 ≤ n := by
        rw [hp] at hf
        simp only [List.length_cons] at hf
        omega
      have hlen := strlen_strtrimView tok
      have hc := cstr_strtrimView tok
      unfold parseProgramLoop
      rw [hs, hp]
      simp only [List.map_cons]
      by_cases ht : trimStr (cstr tok) = []
      · have h0 : ¬ strlen (strtrimView tok) > 0 := by rw [hlen, ht]; simp
        rw [if_neg h0, ih k acc rest hfuel]
        simp [ht]
      · have h0 : strlen (strtrimView tok) > 0 := by
          rw [hlen]; exact List.length_pos.mpr ht
        have hfl : List.filter (fun t => decide (t ≠ []))
            (trimStr (cstr tok) :: List.map trimStr (piecesOf ' ' rest)) =
            trimStr (cstr tok) ::
              List.filter (fun t => decide (t ≠ [])) (List.map trimStr (piecesOf ' ' rest)) := by
          simp [ht]
        rw [if_pos h0, hfl, List.length_cons, allocOK_add_two]
        have hargc : (openProgram acc).argc < (openProgram acc).args.length := by
          simp [openProgram]
        rw [if_pos hargc]
        by_cases ha : alloc k = true
        · rw [if_pos ha]
          have hfull : (openProgram acc).argc + 1 = (openProgram acc).malloced := rfl
          rw [if_pos hfull]
          by_cases hb : alloc (k + 1) = true
          · rw [if_pos hb]
            have hnext : (⟨reallocSlots
                  ((openProgram acc).args.set (openProgram acc).argc
                    (Slot.str (cstr (strtrimView tok)))) ((openProgram acc).malloced + 1),
                (openProgram acc).argc + 1,
                (openProgram acc).malloced + 1⟩ : program_t) =
                openProgram (acc ++ [trimStr (cstr tok)]) := by
              simp only [openProgram, set_open_str, hc]
              rw [reallocSlots_grow _ _ (by simp)]
              simp
            rw [hnext, ih (k + 2) (acc ++ [trimStr (cstr tok)]) rest hfuel]
            simp only [ha, hb, Bool.true_and, List.append_assoc, List.singleton_append]
            have e : k + 2 * ((List.filter (fun t => decide (t ≠ []))
                (List.map trimStr (piecesOf ' ' rest))).length + 1) =
                k + 2 + 2 * (List.filter (fun t => decide (t ≠ []))
                (List.map trimStr (piecesOf ' ' rest))).length := by omega
            rw [e]
          · rw [if_neg hb]
            simp [ha, hb]
        · rw [if_neg ha]
          simp [ha]

/-- The result of `parseProgram` on a stage string: the program of the
argument tokens of its text, unless an allocation request fails. -/
theorem parseProgram_spec (alloc : Nat → Bool) (k : Nat) (m : List Char) :
    parseProgram alloc k m =
      if allocOK alloc k (1 + 2 * (argTokens (cstr m)).length) = true then
        Res.ok (programOf (argTokens (cstr m)), k + 1 + 2 * (argTokens (cstr m)).length)
      else Res.failed := by
  unfold parseProgram
  have hopen : (⟨[Slot.garbage], 0, 1⟩ : program_t) = openProgram [] := rfl
  have hfuel : (piecesOf ' ' (some m)).length + 1 ≤ m.length + 2 := by
    have h1 := pieces_length_le ' ' (cstr m)
    have h2 : (cstr m).length ≤ m.length := by
      rw [← strlen_eq_length_cstr]
      clear h1
      induction m with
      | nil => simp [strlen]
      | cons c cs ih =>
        unfold strlen
        split
        · simp
        · simp only [List.length_cons]; omega
    simp only [piecesOf]
    omega
  have e : 1 + 2 * (argTokens (cstr m)).length = (2 * (argTokens (cstr m)).length) + 1 := by omega
  rw [e]
  by_cases ha : alloc k = true
  · rw [if_pos ha, hopen, parseProgramLoop_spec alloc _ (k + 1) [] (some m) hfuel]
    simp only [allocOK, ha, Bool.true_and, piecesOf, List.nil_append]
    rfl
  · rw [if_neg ha]
    simp [allocOK, ha]

/-! ## Whitespace around a stage text does not change its argument tokens -/

theorem trimStr_nil : trimStr [] = [] := rfl

theorem trimStr_cons_space (c : Char) (l : List Char) (hc : isspace c = true) :
    trimStr (c :: l) = trimStr l := by
  simp [trimStr, List.dropWhile_cons, hc]

theorem trimStr_concat_space (c : Char) (hc : isspace c = true) (l : List Char) :
    trimStr (l ++ [c]) = trimStr l := by
  induction l with
  | nil => simp [trimStr, List.dropWhile_cons, hc, List.rdropWhile_nil]
  | cons y ys ih =>
    by_cases hy : isspace y = true
    · rw [List.cons_append, trimStr_cons_space y _ hy, trimStr_cons_space y _ hy, ih]
    · have h1 : (y :: ys ++ [c]).dropWhile isspace = (y :: ys) ++ [c] := by
        simp [List.dropWhile_cons, hy]
      have h2 : (y :: ys).dropWhile isspace = y :: ys := by
        simp [List.dropWhile_cons, hy]
      unfold trimStr
      rw [h1, h2, List.rdropWhile_concat_pos _ _ _ hc]

/-- The pieces of a text that is followed by another text: the last piece of
the first runs into the first piece of the second. -/
theorem pieces_append (d : Char) (a : List Char) :
    ∃ init last, pieces d a = init ++ [last] ∧
      ∀ b h t, pieces d b = h :: t → pieces d (a ++ b) = init ++ (last ++ h) :: t := by
  induction a with
  | nil =>
    exact ⟨[], [], rfl, fun b h t hb => by simpa using hb⟩
  | cons x xs ih =>
    obtain ⟨init, last, h1, h2⟩ := ih
    by_cases hx : x = d
    · subst hx
      refine ⟨[] :: init, last, ?_, ?_⟩
      · rw [pieces_cons_eq, h1]; rfl
      · intro b h t hb
        rw [List.cons_append, pieces_cons_eq, h2 b h t hb]
        rfl
    · cases init with
      | nil =>
        refine ⟨[], x :: last, ?_, ?_⟩
        · exact pieces_cons_ne d x xs hx last [] (by simpa using h1)
        · intro b h t hb
          have := h2 b h t hb
          rw [List.cons_append]
          simpa using pieces_cons_ne d x (xs ++ b) hx (last ++ h) t (by simpa using this)
      | cons i0 is =>
        refine ⟨(x :: i0) :: is, last, ?_, ?_⟩
        · exact pieces_cons_ne d x xs hx i0 (is ++ [last]) (by simpa using h1)
        · intro b h t hb
          have := h2 b h t hb
          rw [List.cons_append]
          exact pieces_cons_ne d x (xs ++ b) hx i0 (is ++ (last ++ h) :: t)
            (by simpa using this)

theorem argTokens_concat_space (c : Char) (hc : isspace c = true) (xs : List Char) :
    argTokens (xs ++ [c]) = argTokens xs := by
  obtain ⟨init, last, h1, h2⟩ := pieces_append ' ' xs
  unfold argTokens
  by_cases hsp : c = ' '
  · subst hsp
    have hb : pieces ' ' [' '] = [] :: [[]] := by decide
    rw [h2 _ _ _ hb, h1]
    simp [trimStr_nil, List.filter_cons]
  · have hb : pieces ' ' [c] = [c] :: [] := by
      simp [pieces, hsp]
    rw [h2 _ _ _ hb, h1]
    simp [trimStr_concat_space c hc]

theorem argTokens_rdropWhile (t : List Char) :
    argTokens (t.rdropWhile isspace) = argTokens t := by
  induction t using List.reverseRecOn with
  | nil => rfl
  | append_singleton xs c ih =>
    by_cases hc : isspace c = true
    · rw [List.rdropWhile_concat_pos _ _ _ hc, ih, argTokens_concat_space c hc]
    · rw [List.rdropWhile_concat_neg _ _ _ hc]

theorem argTokens_cons_space (c : Char) (hc : isspace c = true) (cs : List Char) :
    argTokens (c :: cs) = argTokens cs := by
  unfold argTokens
  by_cases hsp : c = ' '
  · subst hsp
    rw [pieces_cons_eq]
    simp [trimStr_nil]
  · cases hp : pieces ' ' cs with
    | nil => exact absurd hp (pieces_ne_nil ' ' cs)
    | cons p ps =>
      rw [pieces_cons_ne ' ' c cs hsp p ps hp]
      simp [trimStr_cons_space c p hc]

theorem argTokens_dropWhile (t : List Char) :
    argTokens (t.dropWhile isspace) = argTokens t := by
  induction t with
  | nil => rfl
  | cons c cs ih =>
    by_cases hc : isspace c = true
    · rw [List.dropWhile_cons_of_pos hc, ih, argTokens_cons_space c hc]
    · rw [List.dropWhile_cons_of_neg hc]

/-- The argument tokens of a text are those of the text without its leading
and trailing whitespace. -/
theorem argTokens_trimStr (t : List Char) : argTokens (trimStr t) = argTokens t := by
  unfold trimStr
  rw [argTokens_rdropWhile, argTokens_dropWhile]

/-! ## `parseCommand` in terms of the text of the line -/

theorem allocOK_false (alloc : Nat → Bool) :
    ∀ n k, allocOK alloc k n = false → ∃ j, alloc j = false := by
  intro n
  induction n with
  | zero => intro k h; simp [allocOK] at h
  | succ n ih =>
    intro k h
    unfold allocOK at h
    by_cases ha : alloc k = true
    · rw [ha, Bool.true_and] at h
      exact ih (k + 1) h
    · exact ⟨k, by simpa using ha⟩

theorem extendCommand_nil (command : command_t)
    (h : command.malloced = 2 * (command.count / 2) + 2) :
    extendCommand command [] = command := by
  cases command
  simp only [extendCommand, List.append_nil, List.length_nil, Nat.add_zero] at *
  simp [h]

theorem extendCommand_cons (command : command_t) (p : program_t) (ps : List program_t)
    (m : Nat) :
    extendCommand ⟨command.programs ++ [p], command.count + 1, m, command.background⟩ ps =
      extendCommand command (p :: ps) := by
  simp only [extendCommand, List.append_assoc, List.singleton_append, List.length_cons]
  have : command.count + 1 + ps.length = command.count + (ps.length + 1) := by omega
  rw [this]

/-- The loop of `parseCommand` stores one stage per piece that is left, in
order; it returns `true` unless an allocation request fails. -/
theorem parseCommandLoop_spec (alloc : Nat → Bool) :
    ∀ (fuel k : Nat) (command : command_t) (sp : Option (List Char)),
      command.malloced = 2 * (command.count / 2) + 2 →
      (piecesOf '|' sp).length + 1 ≤ fuel →
      (parseCommandLoop alloc fuel k command sp = Res.failed ∧ ∃ j, alloc j = false) ∨
      ∃ k1, parseCommandLoop alloc fuel k command sp =
        Res.ok (extendCommand command ((piecesOf '|' sp).map stageOf), k1) := by
  intro fuel
  induction fuel with
  | zero => intro k command sp _ h; omega
  | succ n ih =>
    intro k command sp hm hf
    cases sp with
    | none =>
      right
      refine ⟨k, ?_⟩
      simp [parseCommandLoop, strsep, piecesOf, extendCommand_nil command hm]
    | some m =>
      obtain ⟨tok, rest, hs, hp⟩ := strsep_some '|' m
      have hfuel : (piecesOf '|' rest).length + 1 ≤ n := by
        rw [hp] at hf
        simp only [List.length_cons] at hf
        omega
      have hlt : command.count < command.malloced := by omega
      unfold parseCommandLoop
      rw [hs, hp]
      simp only [List.map_cons]
      rw [if_pos hlt, parseProgram_spec, cstr_strtrimView, argTokens_trimStr]
      by_cases ha : allocOK alloc k (1 + 2 * (argTokens (cstr tok)).length) = true
      · rw [if_pos ha]
        simp only []
        by_cases hfull : command.count + 1 = command.malloced
        · rw [if_pos hfull]
          by_cases hb : alloc (k + 1 + 2 * (argTokens (cstr tok)).length) = true
          · rw [if_pos hb]
            have := ih (k + 1 + 2 * (argTokens (cstr tok)).length + 1)
              ⟨command.programs ++ [programOf (argTokens (cstr tok))],
                command.count + 1, command.malloced + 2, command.background⟩ rest
              (by simp only []; omega) hfuel
            rw [extendCommand_cons] at this
            exact this
          · rw [if_neg hb]
            left
            exact ⟨rfl, ⟨_, by simpa using hb⟩⟩
        · rw [if_neg hfull]
          have := ih (k + 1 + 2 * (argTokens (cstr tok)).length)
            ⟨command.programs ++ [programOf (argTokens (cstr tok))],
              command.count + 1, command.malloced, command.background⟩ rest
            (by simp only []; omega) hfuel
          rw [extendCommand_cons] at this
          exact this
      · rw [if_neg ha]
        left
        exact ⟨rfl, allocOK_false alloc _ k (by simpa using ha)⟩

theorem rd_last (s : List Char) (c : Char) (hs : s ≠ []) :
    rd s (s.length - 1) = c ↔ s.getLast? = some c := by
  have hlt : s.length - 1 < s.length := by
    have := List.length_pos.mpr hs
    omega
  rw [List.getLast?_eq_getElem?]
  simp [rd, List.getElem?_eq_getElem hlt]

theorem cstr_length_le (m : List Char) : (cstr m).length ≤ m.length := by
  induction m with
  | nil => simp [cstr]
  | cons c cs ih =>
    unfold cstr
    split
    · simp
    · simp only [List.length_cons]; omega

/-- The result of `parseCommand` on a non-empty line with text `s`: it returns
`false` when an allocation request fails or when the line ends in `&` while
`processCount` is `MAX_PROCESSES`; otherwise it returns `true` with the command
of the text. -/
theorem parseCommand_cases (alloc : Nat → Bool) (k processCount : Nat)
    (buf : List Char) (commandStr : Nat) (hs : cstr (buf.drop commandStr) ≠ []) :
    (parseCommand alloc k processCount buf commandStr = Res.failed ∧
      ((∃ j, alloc j = false) ∨
        ((cstr (buf.drop commandStr)).getLast? = some '&' ∧ processCount = MAX_PROCESSES))) ∨
    (∃ k1, parseCommand alloc k processCount buf commandStr =
        Res.ok (commandOf (decide ((cstr (buf.drop commandStr)).getLast? = some '&'))
          (cstr (buf.drop commandStr)), k1) ∧
      ¬ ((cstr (buf.drop commandStr)).getLast? = some '&' ∧ processCount = MAX_PROCESSES)) := by
  have hL : 0 < strlen (buf.drop commandStr) := by
    rw [strlen_eq_length_cstr]; exact List.length_pos.mpr hs
  have hlen := strlen_eq_length_cstr (buf.drop commandStr)
  have hrd : rd buf (commandStr + strlen (buf.drop commandStr) - 1) =
      rd (cstr (buf.drop commandStr)) ((cstr (buf.drop commandStr)).length - 1) := by
    rw [← rd_of_cstr _ _ (by omega), rd_drop, ← hlen]
    congr 1
    omega
  have hbg : (decide (rd buf (commandStr + strlen (buf.drop commandStr) - 1) = '&')) =
      decide ((cstr (buf.drop commandStr)).getLast? = some '&') := by
    rw [hrd]
    exact decide_eq_decide.mpr (rd_last _ _ hs)
  unfold parseCommand
  by_cases ha : alloc k = true
  · rw [if_pos ha]
    simp only []
    rw [if_neg (by omega), hbg]
    by_cases hb : (cstr (buf.drop commandStr)).getLast? = some '&'
    · by_cases hc : processCount = MAX_PROCESSES
      · left
        simp [hb, hc]
      · have hc2 : ¬ MAX_PROCESSES = processCount := fun e => hc e.symm
        simp only [hb, decide_True, if_true, Bool.true_and, beq_iff_eq, hc2, if_false]
        have hdrop : (buf.set (commandStr + strlen (buf.drop commandStr) - 1) NUL).drop commandStr =
            (buf.drop commandStr).set (strlen (buf.drop commandStr) - 1) NUL := by
          rw [List.drop_set, if_neg (by omega)]
          congr 1
          omega
        have hcs : cstr ((buf.set (commandStr + strlen (buf.drop commandStr) - 1) NUL).drop
            commandStr) = (cstr (buf.drop commandStr)).dropLast := by
          rw [hdrop, cstr_set _ _ (by omega), List.dropLast_eq_take, hlen]
        have hfuel : (piecesOf '|' (some ((buf.set (commandStr + strlen (buf.drop commandStr) - 1)
            NUL).drop commandStr))).length + 1 ≤ strlen (buf.drop commandStr) + 2 := by
          simp only [piecesOf, hcs]
          have := pieces_length_le '|' (cstr (buf.drop commandStr)).dropLast
          simp only [List.length_dropLast] at this
          omega
        rcases parseCommandLoop_spec alloc _ (k + 1) ⟨[], 0, 2, true⟩ _ (by simp) hfuel with h | h
        · left
          exact ⟨h.1, Or.inl h.2⟩
        · right
          obtain ⟨k1, hk⟩ := h
          refine ⟨k1, ?_, fun e => hc e.2⟩
          rw [hk]
          simp only [piecesOf, hcs, commandOf, if_true]
    · have hdec : decide ((cstr (buf.drop commandStr)).getLast? = some '&') = false := by
        simp [hb]
      rw [hdec]
      simp only [Bool.false_and, Bool.false_eq_true, if_false]
      have hfuel : (piecesOf '|' (some (buf.drop commandStr))).length + 1 ≤
          strlen (buf.drop commandStr) + 2 := by
        simp only [piecesOf]
        have := pieces_length_le '|' (cstr (buf.drop commandStr))
        omega
      rcases parseCommandLoop_spec alloc _ (k + 1) ⟨[], 0, 2, false⟩ _ (by simp) hfuel with h | h
      · left
        exact ⟨h.1, Or.inl h.2⟩
      · right
        obtain ⟨k1, hk⟩ := h
        refine ⟨k1, ?_, fun e => hb e.1⟩
        rw [hk]
        simp only [piecesOf, commandOf]
        rfl
  · left
    rw [if_neg ha]
    exact ⟨rfl, Or.inl ⟨k, by simpa using ha⟩⟩

/-! ## Properties of the parsed pipeline -/

theorem mem_of_mem_trimStr (s : List Char) (c : Char) (h : c ∈ trimStr s) : c ∈ s := by
  unfold trimStr at h
  have h1 : c ∈ s.dropWhile isspace := (List.rdropWhile_prefix isspace _).subset h
  exact (List.dropWhile_sublist isspace).subset h1

theorem mem_of_mem_pieces (d : Char) (s : List Char) :
    ∀ q, q ∈ pieces d s → ∀ c, c ∈ q → c ∈ s := by
  induction s with
  | nil =>
    intro q hq c hc
    simp [pieces] at hq
    subst hq
    simp at hc
  | cons x xs ih =>
    intro q hq c hc
    by_cases hx : x = d
    · subst hx
      rw [pieces_cons_eq] at hq
      rcases List.mem_cons.mp hq with h | h
      · subst h; simp at hc
      · exact List.mem_cons_of_mem _ (ih q h c hc)
    · cases hp : pieces d xs with
      | nil => exact absurd hp (pieces_ne_nil d xs)
      | cons p ps =>
        rw [pieces_cons_ne d x xs hx p ps hp] at hq
        rcases List.mem_cons.mp hq with h | h
        · subst h
          rcases List.mem_cons.mp hc with h1 | h1
          · subst h1; exact List.mem_cons_self _ _
          · exact List.mem_cons_of_mem _ (ih p (by rw [hp]; exact List.mem_cons_self _ _) c h1)
        · exact List.mem_cons_of_mem _
            (ih q (by rw [hp]; exact List.mem_cons_of_mem _ h) c hc)

theorem mem_of_mem_argTokens (s t : List Char) (ht : t ∈ argTokens s) (c : Char)
    (hc : c ∈ t) : c ∈ s := by
  unfold argTokens at ht
  have h1 := (List.mem_filter.mp ht).1
  obtain ⟨q, hq, hqt⟩ := List.mem_map.mp h1
  subst hqt
  exact mem_of_mem_pieces ' ' s q hq c (mem_of_mem_trimStr q c hc)

/-- Every character of an argument token of a stage is a character of the
stage text. -/
theorem mem_of_mem_stageOf (piece t : List Char) (ht : Slot.str t ∈ (stageOf piece).args)
    (c : Char) (hc : c ∈ t) : c ∈ piece := by
  unfold stageOf programOf at ht
  simp only [List.mem_append, List.mem_map, List.mem_singleton] at ht
  rcases ht with ⟨t1, h1, h2⟩ | h
  · have : t1 = t := by injection h2
    subst this
    exact mem_of_mem_argTokens _ _ h1 c hc
  · exact absurd h (by simp)

theorem pieces_of_not_mem (d : Char) (s : List Char) (h : d ∉ s) : pieces d s = [s] := by
  induction s with
  | nil => rfl
  | cons x xs ih =>
    have hx : x ≠ d := fun e => h (e ▸ List.mem_cons_self _ _)
    exact pieces_cons_ne d x xs hx _ _ (ih (fun e => h (List.mem_cons_of_mem _ e)))

theorem pieces_append_delim (d : Char) (a b : List Char) (h : d ∉ a) :
    pieces d (a ++ d :: b) = a :: pieces d b := by
  induction a with
  | nil => exact pieces_cons_eq d b
  | cons x xs ih =>
    have hx : x ≠ d := fun e => h (e ▸ List.mem_cons_self _ _)
    exact pieces_cons_ne d x _ hx _ _ (ih (fun e => h (List.mem_cons_of_mem _ e)))

theorem pieces_length (d : Char) (s : List Char) : (pieces d s).length = s.count d + 1 := by
  induction s with
  | nil => rfl
  | cons x xs ih =>
    by_cases hx : x = d
    · subst hx
      rw [pieces_cons_eq, List.length_cons, ih, List.count_cons_self]
    · cases hp : pieces x xs with
      | nil => exact absurd hp (pieces_ne_nil x xs)
      | cons p ps =>
        cases hq : pieces d xs with
        | nil => exact absurd hq (pieces_ne_nil d xs)
        | cons q qs =>
          rw [pieces_cons_ne d x xs hx q qs hq, List.count_cons_of_ne (fun e => hx e.symm),
            ← ih, hq]
          rfl

theorem commandOf_count (bg : Bool) (s : List Char) :
    (commandOf bg s).count = (if bg then s.dropLast else s).count '|' + 1 := by
  simp [commandOf, extendCommand, pieces_length]

theorem commandOf_programs (bg : Bool) (s : List Char) :
    (commandOf bg s).programs = (pieces '|' (if bg then s.dropLast else s)).map stageOf := by
  simp [commandOf, extendCommand]

theorem commandOf_background (bg : Bool) (s : List Char) :
    (commandOf bg s).background = bg := rfl

/-- A successful `parseCommand` on a non-empty line returns the command of the
text of the line. -/
theorem parseCommand_ok (alloc : Nat → Bool) (k processCount : Nat) (buf : List Char)
    (commandStr : Nat) (command : command_t) (k1 : Nat)
    (hs : cstr (buf.drop commandStr) ≠ [])
    (hok : parseCommand alloc k processCount buf commandStr = Res.ok (command, k1)) :
    command = commandOf (decide ((cstr (buf.drop commandStr)).getLast? = some '&'))
      (cstr (buf.drop commandStr)) := by
  rcases parseCommand_cases alloc k processCount buf commandStr hs with h | ⟨k2, h, _⟩
  · rw [h.1] at hok
    exact absurd hok (by simp)
  · rw [h] at hok
    injection hok with e
    injection e with e1 _
    exact e1.symm

/-- A non-empty line is parsed successfully when no allocation request fails
and it is not a background request made at capacity. -/
theorem parseCommand_total (alloc : Nat → Bool) (k processCount : Nat) (buf : List Char)
    (commandStr : Nat) (hs : cstr (buf.drop commandStr) ≠ [])
    (hall : ∀ j, alloc j = true)
    (hcap : ¬ ((cstr (buf.drop commandStr)).getLast? = some '&' ∧
      processCount = MAX_PROCESSES)) :
    ∃ command k1, parseCommand alloc k processCount buf commandStr = Res.ok (command, k1) := by
  rcases parseCommand_cases alloc k processCount buf commandStr hs with h | ⟨k1, h, _⟩
  · rcases h.2 with ⟨j, hj⟩ | h2
    · rw [hall j] at hj
      exact absurd hj (by simp)
    · exact absurd h2 hcap
  · exact ⟨_, k1, h⟩

/-- C6: for every command line that ends in '&' and holds no other '&',
parseCommand produces a pipeline whenever no allocation fails and processCount
is below MAX_PROCESSES, and every pipeline it produces has background == true,
has the stages of the line without the '&', and has no argument token, in any
stage, that contains the character '&'. -/
theorem parseCommand_background (alloc : Nat → Bool) (k processCount : Nat)
    (buf : List Char) (commandStr : Nat) (s0 : List Char)
    (hline : cstr (buf.drop commandStr) = s0 ++ ['&']) (hno : '&' ∉ s0) :
    ((∀ j, alloc j = true) → processCount ≠ MAX_PROCESSES →
      ∃ command k1, parseCommand alloc k processCount buf commandStr = Res.ok (command, k1)) ∧
    ∀ command k1, parseCommand alloc k processCount buf commandStr = Res.ok (command, k1) →
      command.background = true ∧
      command.programs = (pieces '|' s0).map stageOf ∧
      ∀ p ∈ command.programs, ∀ t, Slot.str t ∈ p.args → '&' ∉ t := by
  have hs : cstr (buf.drop commandStr) ≠ [] := by rw [hline]; simp
  constructor
  · intro hall hcap
    exact parseCommand_total alloc k processCount buf commandStr hs hall (fun e => hcap e.2)
  · intro command k1 hok
    have hc := parseCommand_ok alloc k processCount buf commandStr command k1 hs hok
    have hbg : decide ((cstr (buf.drop commandStr)).getLast? = some '&') = true := by
      rw [hline]; simp
    rw [hbg, hline] at hc
    have hprog : command.programs = (pieces '|' s0).map stageOf := by
      rw [hc, commandOf_programs]; simp
    refine ⟨by rw [hc]; rfl, hprog, ?_⟩
    intro p hp t ht hamp
    rw [hprog] at hp
    obtain ⟨piece, hpiece, e⟩ := List.mem_map.mp hp
    subst e
    have h1 := mem_of_mem_stageOf piece t ht '&' hamp
    exact hno (mem_of_mem_pieces '|' s0 piece hpiece '&' h1)

theorem parseCommand_background_witness :
    (∃ command k1, parseCommand (fun _ => true) 0 0 "ls -l | wc &\x00".toList 0 =
      Res.ok (command, k1)) ∧
    (commandOf true "ls -l | wc &".toList).background = true ∧
    (commandOf true "ls -l | wc &".toList).programs =
      (pieces '|' "ls -l | wc ".toList).map stageOf ∧
    ∀ p ∈ (commandOf true "ls -l | wc &".toList).programs,
      ∀ t, Slot.str t ∈ p.args → '&' ∉ t :=
  ⟨(parseCommand_background (fun _ => true) 0 0 "ls -l | wc &\x00".toList 0
      "ls -l | wc ".toList (by decide) (by decide)).1 (fun _ => rfl) (by decide),
    (parseCommand_background (fun _ => true) 0 0 "ls -l | wc &\x00".toList 0
      "ls -l | wc ".toList (by decide) (by decide)).2
      (commandOf true "ls -l | wc &".toList) 10 (by decide)⟩

theorem commandOf_one_pipe (bg : Bool) (s a b : List Char) (ha : '|' ∉ a) (hb : '|' ∉ b)
    (h : (if bg then s.dropLast else s) = a ++ '|' :: b) :
    commandOf bg s = ⟨[stageOf a, stageOf b], 2, 4, bg⟩ := by
  unfold commandOf
  rw [h, pieces_append_delim '|' a b ha, pieces_of_not_mem '|' b hb]
  simp [extendCommand]

/-- C5: for every command line with exactly one '|' (the text a left of it and
the text b right of it), parseCommand succeeds whenever no allocation fails and
the line is not a background request made at capacity, and every successful
parseCommand yields count == 2, with programs[0] the stage of a and
programs[1] the stage of b, where a trailing '&' of the line is the background
marker and not part of b. -/
theorem parseCommand_one_pipe (alloc : Nat → Bool) (k processCount : Nat)
    (buf : List Char) (commandStr : Nat) (a b : List Char)
    (hline : cstr (buf.drop commandStr) = a ++ '|' :: b)
    (ha : '|' ∉ a) (hb : '|' ∉ b) :
    ((∀ j, alloc j = true) →
      ¬ (b.getLast? = some '&' ∧ processCount = MAX_PROCESSES) →
      ∃ command k1, parseCommand alloc k processCount buf commandStr = Res.ok (command, k1)) ∧
    ∀ command k1, parseCommand alloc k processCount buf commandStr = Res.ok (command, k1) →
      command.count = 2 ∧
      command.background = decide (b.getLast? = some '&') ∧
      command.programs =
        [stageOf a, stageOf (if command.background then b.dropLast else b)] := by
  have hs : cstr (buf.drop commandStr) ≠ [] := by rw [hline]; simp
  have hlast : (a ++ '|' :: b).getLast? = some '&' ↔ b.getLast? = some '&' := by
    cases b with
    | nil => simp
    | cons x xs =>
      rw [List.getLast?_append]
      simp [List.getLast?_cons_cons]
  constructor
  · intro hall hcap
    apply parseCommand_total alloc k processCount buf commandStr hs hall
    rw [hline]
    exact fun e => hcap ⟨hlast.mp e.1, e.2⟩
  · intro command k1 hok
    have hc := parseCommand_ok alloc k processCount buf commandStr command k1 hs hok
    rw [hline] at hc
    rw [decide_eq_decide.mpr hlast] at hc
    by_cases h : b.getLast? = some '&'
    · obtain ⟨b0, hb0⟩ := List.getLast?_eq_some_iff.mp h
      subst hb0
      have hb1 : '|' ∉ b0 := fun e => hb (List.mem_append_left _ e)
      have hd : decide ((b0 ++ ['&']).getLast? = some '&') = true := by simp
      have e1 : (a ++ '|' :: (b0 ++ ['&'])).dropLast = a ++ '|' :: b0 := by
        have : a ++ '|' :: (b0 ++ ['&']) = (a ++ '|' :: b0) ++ ['&'] := by simp
        rw [this, List.dropLast_concat]
      rw [hd, commandOf_one_pipe true _ a b0 ha hb1 (by rw [if_pos rfl]; exact e1)] at hc
      rw [hc, hd]
      simp
    · have hd : decide (b.getLast? = some '&') = false := by simp [h]
      rw [hd, commandOf_one_pipe false _ a b ha hb (by simp)] at hc
      rw [hc, hd]
      simp

theorem parseCommand_one_pipe_witness :
    (∃ command k1, parseCommand (fun _ => true) 0 0 "ls -l | wc -c\x00".toList 0 =
      Res.ok (command, k1)) ∧
    (commandOf false "ls -l | wc -c".toList).count = 2 ∧
    (commandOf false "ls -l | wc -c".toList).background =
      decide (" wc -c".toList.getLast? = some '&') ∧
    (commandOf false "ls -l | wc -c".toList).programs =
      [stageOf "ls -l ".toList,
        stageOf (if (commandOf false "ls -l | wc -c".toList).background
          then " wc -c".toList.dropLast else " wc -c".toList)] :=
  ⟨(parseCommand_one_pipe (fun _ => true) 0 0 "ls -l | wc -c\x00".toList 0
      "ls -l ".toList " wc -c".toList (by decide) (by decide) (by decide)).1
      (fun _ => rfl) (by decide),
    (parseCommand_one_pipe (fun _ => true) 0 0 "ls -l | wc -c\x00".toList 0
      "ls -l ".toList " wc -c".toList (by decide) (by decide) (by decide)).2
      (commandOf false "ls -l | wc -c".toList) 12 (by decide)⟩

/-! ## The capacity gate and the stage-count dispatch -/

theorem count_pipe_dropLast (s : List Char) (h : s.getLast? = some '&') :
    s.dropLast.count '|' = s.count '|' := by
  obtain ⟨s0, hs0⟩ := List.getLast?_eq_some_iff.mp h
  subst hs0
  rw [List.dropLast_concat, List.count_append]
  simp [List.count_singleton]

theorem commandOf_count_eq (s : List Char) :
    (commandOf (decide (s.getLast? = some '&')) s).count = s.count '|' + 1 := by
  rw [commandOf_count]
  by_cases h : s.getLast? = some '&'
  · simp [h, count_pipe_dropLast s h]
  · simp [h]

theorem dispatch_long (env : MainEnv) (kk : Nat) (st : ShellState) (command : command_t)
    (h : 3 ≤ command.count) :
    dispatch env kk st command =
      (st, [MainEvent.pipeLength command.count, MainEvent.freeCommand], Ctl.next) := by
  unfold dispatch
  rw [if_neg (by omega), if_neg (by omega)]

/-- C4 (as amended): for every command line with two or more '|' on which
parseCommand returns true (it does whenever no allocation fails and the line is
not a background request made while processCount is MAX_PROCESSES), the
command has three or more stages and the dispatch in main ends in the
unsupported-pipeline-length error: the error is reported, the command is
freed, no launch function is called and the next loop iteration starts. -/
theorem pipeline_too_long (alloc : Nat → Bool) (k processCount : Nat) (buf : List Char)
    (commandStr : Nat) (hp : 2 ≤ (cstr (buf.drop commandStr)).count '|') :
    ((∀ j, alloc j = true) →
      ¬ ((cstr (buf.drop commandStr)).getLast? = some '&' ∧ processCount = MAX_PROCESSES) →
      ∃ command k1, parseCommand alloc k processCount buf commandStr = Res.ok (command, k1)) ∧
    ∀ command k1, parseCommand alloc k processCount buf commandStr = Res.ok (command, k1) →
      3 ≤ command.count ∧
      ∀ (env : MainEnv) (kk : Nat) (st : ShellState),
        dispatch env kk st command =
          (st, [MainEvent.pipeLength command.count, MainEvent.freeCommand], Ctl.next) ∧
        ∀ e ∈ (dispatch env kk st command).2.1, e.isLaunch = false := by
  have hs : cstr (buf.drop commandStr) ≠ [] := by
    intro e
    rw [e] at hp
    simp at hp
  constructor
  · intro hall hcap
    exact parseCommand_total alloc k processCount buf commandStr hs hall hcap
  · intro command k1 hok
    have hc := parseCommand_ok alloc k processCount buf commandStr command k1 hs hok
    have hcount : 3 ≤ command.count := by
      rw [hc, commandOf_count_eq]
      omega
    refine ⟨hcount, fun env kk st => ?_⟩
    have hd := dispatch_long env kk st command hcount
    refine ⟨hd, ?_⟩
    rw [hd]
    intro e he
    simp only [List.mem_cons, List.mem_singleton, List.not_mem_nil, or_false] at he
    rcases he with h | h <;> subst h <;> rfl

theorem pipeline_too_long_witness :
    (∃ command k1, parseCommand (fun _ => true) 0 0 "a | b | c\x00".toList 0 =
      Res.ok (command, k1)) ∧
    3 ≤ (commandOf false "a | b | c".toList).count ∧
    ∀ (env : MainEnv) (kk : Nat) (st : ShellState),
      dispatch env kk st (commandOf false "a | b | c".toList) =
        (st, [MainEvent.pipeLength (commandOf false "a | b | c".toList).count,
          MainEvent.freeCommand], Ctl.next) ∧
      ∀ e ∈ (dispatch env kk st (commandOf false "a | b | c".toList)).2.1,
        e.isLaunch = false :=
  ⟨(pipeline_too_long (fun _ => true) 0 0 "a | b | c\x00".toList 0 (by decide)).1
      (fun _ => rfl) (by decide),
    (pipeline_too_long (fun _ => true) 0 0 "a | b | c\x00".toList 0 (by decide)).2
      (commandOf false "a | b | c".toList) 11 (by decide)⟩

/-- C4 (the claim as stated fails): the line "a|b|c&" holds two '|', but with
eight jobs registered parseCommand returns false at the capacity check, before
it splits the line, and main frees the command and exits with EXIT_FAILURE;
the unsupported-pipeline-length error is not reported. -/
theorem capacity_check_precedes_split :
    2 ≤ "a|b|c&".toList.count '|' ∧
    parseCommand (fun _ => true) 1 fullRegistry.processCount "a|b|c&\x00".toList 0 =
      Res.failed ∧
    mainStep (calmEnv "a|b|c&") ⟨fullRegistry, false⟩ =
      (⟨fullRegistry, false⟩, [MainEvent.freeCommand], Ctl.exit 1) := by
  decide

/-- C7 (the code departs from the claim): on the line "ls |" parseCommand
returns true with a second stage whose argc is 0 and whose args[0] is NULL, and
on the line "&" with a single such stage, which main then hands to strcmp
through the NULL pointer. -/
theorem parseCommand_accepts_empty_stage :
    parseCommand (fun _ => true) 0 0 "ls |\x00".toList 0 =
      Res.ok (⟨[⟨[Slot.str "ls".toList, Slot.null], 1, 2⟩, ⟨[Slot.null], 0, 1⟩], 2, 4, false⟩, 6) ∧
    parseCommand (fun _ => true) 0 0 "&\x00".toList 0 =
      Res.ok (⟨[⟨[Slot.null], 0, 1⟩], 1, 2, true⟩, 2) ∧
    mainStep (calmEnv "&") ⟨initRegistry, false⟩ = (⟨initRegistry, false⟩, [], Ctl.fault) ∧
    (mainStep (calmEnv "ls |") ⟨initRegistry, false⟩).2.1.map MainEvent.isLaunch =
      [true, false, false] := by
  decide

/-! ## Registering up to capacity -/

theorem mem_registerLoop_self (id : Int) (ps : List Int) (h : (-1 : Int) ∈ ps) :
    id ∈ registerLoop id ps := by
  induction ps with
  | nil => simp at h
  | cons p ps ih =>
    unfold registerLoop
    by_cases hp : p = -1
    · simp [hp]
    · rw [if_neg hp]
      rcases List.mem_cons.mp h with h1 | h1
      · exact absurd h1.symm hp
      · exact List.mem_cons_of_mem _ (ih h1)

theorem mem_registerLoop_of_mem (x id : Int) (ps : List Int) (hx : x ≠ -1) (h : x ∈ ps) :
    x ∈ registerLoop id ps := by
  induction ps with
  | nil => simp at h
  | cons p ps ih =>
    unfold registerLoop
    rcases List.mem_cons.mp h with h1 | h1
    · subst h1
      rw [if_neg hx]
      exact List.mem_cons_self _ _
    · by_cases hp : p = -1
      · rw [if_pos hp]
        exact List.mem_cons_of_mem _ h1
      · rw [if_neg hp]
        exact List.mem_cons_of_mem _ (ih h1)

theorem empty_mem_unregisterLoop (id : Int) (ps : List Int) (h : id ∈ ps) :
    (-1 : Int) ∈ unregisterLoop id ps := by
  induction ps with
  | nil => simp at h
  | cons p ps ih =>
    unfold unregisterLoop
    by_cases hp : p = id
    · rw [if_pos hp]
      exact List.mem_cons_self _ _
    · rw [if_neg hp]
      rcases List.mem_cons.mp h with h1 | h1
      · exact absurd h1.symm hp
      · exact List.mem_cons_of_mem _ (ih h1)

theorem registerProcess_count (r : Registry) (id : Int) (h : r.processCount < MAX_PROCESSES) :
    (registerProcess r id).processCount = r.processCount + 1 := by
  show (r.processCount + 1) % SIZE_MOD = _
  apply Nat.mod_eq_of_lt
  have : MAX_PROCESSES < SIZE_MOD := by decide
  omega

theorem empty_mem_of_count_lt (r : Registry) (hinv : RegistryInv r)
    (h : r.processCount < MAX_PROCESSES) : (-1 : Int) ∈ r.processes := by
  apply mem_of_liveCount_lt
  rw [r.size_eq]
  have : r.processCount = liveCount r.processes := hinv
  omega

/-- Registering a list of ids returned by `fork`, one after the other, within
the capacity: the invariant is kept, the counter grows by the number of ids and
every id is held in a slot. -/
theorem register_all (ids : List Int) (hpos : ∀ id ∈ ids, 0 < id) :
    ∀ r : Registry, RegistryInv r → r.processCount + ids.length ≤ MAX_PROCESSES →
      RegistryInv (ids.foldl registerProcess r) ∧
      (ids.foldl registerProcess r).processCount = r.processCount + ids.length ∧
      (∀ x ∈ r.processes, x ≠ -1 → x ∈ (ids.foldl registerProcess r).processes) ∧
      ∀ id ∈ ids, id ∈ (ids.foldl registerProcess r).processes := by
  induction ids with
  | nil =>
    intro r hinv _
    exact ⟨hinv, rfl, fun x hx _ => hx, fun id hid => absurd hid (List.not_mem_nil id)⟩
  | cons a rest ih =>
    intro r hinv hcap
    simp only [List.length_cons] at hcap
    have ha : 0 < a := hpos a (List.mem_cons_self _ _)
    have hlt : r.processCount < MAX_PROCESSES := by omega
    have hinv1 := registerProcess_inv r a hinv (by omega) hlt
    have hcnt1 := registerProcess_count r a hlt
    have hrest := ih (fun id hid => hpos id (List.mem_cons_of_mem _ hid))
      (registerProcess r a) hinv1 (by omega)
    simp only [List.foldl_cons]
    refine ⟨hrest.1, ?_, ?_, ?_⟩
    · rw [hrest.2.1, hcnt1, List.length_cons]; omega
    · intro x hx hne
      exact hrest.2.2.1 x (mem_registerLoop_of_mem x a r.processes hne hx) hne
    · intro id hid
      rcases List.mem_cons.mp hid with h | h
      · subst h
        exact hrest.2.2.1 id
          (mem_registerLoop_self id r.processes (empty_mem_of_count_lt r hinv hlt)) (by omega)
      · exact hrest.2.2.2 id h

theorem unregisterProcess_count (r : Registry) (id : Int) (h : 0 < r.processCount)
    (hle : r.processCount ≤ MAX_PROCESSES) :
    (unregisterProcess r id).processCount = r.processCount - 1 := by
  show (r.processCount + (SIZE_MOD - 1)) % SIZE_MOD = _
  have hM : MAX_PROCESSES < SIZE_MOD := by decide
  have e : r.processCount + (SIZE_MOD - 1) = (r.processCount - 1) + SIZE_MOD := by omega
  rw [e, Nat.add_mod_right, Nat.mod_eq_of_lt (by omega)]

/-- When `parseCommand` returns `false` on the line that was read, the loop
iteration of `main` leaves the state as it is and calls no launch function. -/
theorem mainStep_of_failed (env : MainEnv) (st : ShellState)
    (h : ∀ ib, env.fgets = some ib →
      parseCommand env.alloc 1 st.reg.processCount (strtrim (ib.set (strlen ib - 1) NUL)).2
        (strtrim (ib.set (strlen ib - 1) NUL)).1 = Res.failed) :
    (mainStep env st).1 = st ∧ ∀ e ∈ (mainStep env st).2.1, e.isLaunch = false := by
  unfold mainStep
  by_cases h1 : (!env.alloc 0) = true
  · rw [if_pos h1]
    exact ⟨rfl, by intro e he; simp at he; subst he; rfl⟩
  · rw [if_neg h1]
    by_cases h2 : (!env.getcwd) = true
    · rw [if_pos h2]
      exact ⟨rfl, by intro e he; simp at he; subst he; rfl⟩
    · rw [if_neg h2]
      cases hf : env.fgets with
      | none => exact ⟨rfl, by intro e he; simp at he⟩
      | some ib =>
        simp only []
        by_cases h3 : strlen ib = 0
        · rw [if_pos h3]
          exact ⟨rfl, by intro e he; simp at he⟩
        · rw [if_neg h3]
          by_cases h4 : strlen (strtrim (ib.set (strlen ib - 1) NUL)).2 = 0
          · rw [if_pos h4]
            exact ⟨rfl, by intro e he; simp at he⟩
          · rw [if_neg h4, h ib hf]
            exact ⟨rfl, by intro e he; simp at he; subst he; rfl⟩

/-- C2: after eight background jobs (ids returned by fork) have been registered
from the initial registry, processCount is MAX_PROCESSES and parseCommand
returns false on every line ending in '&', so that the loop iteration of main
calls no launch function and leaves the registry as it is; after
unregisterProcess of one of the registered ids, parseCommand returns true on
every line ending in '&' (no allocation failing) with background set, and
registerProcess of a new id stores it: isProcess of it is true. -/
theorem capacity_gate (ids : List Int) (hlen : ids.length = MAX_PROCESSES)
    (hpos : ∀ id ∈ ids, 0 < id) :
    (ids.foldl registerProcess initRegistry).processCount = MAX_PROCESSES ∧
    (∀ (alloc : Nat → Bool) (k : Nat) (buf : List Char) (commandStr : Nat),
      (cstr (buf.drop commandStr)).getLast? = some '&' →
      parseCommand alloc k (ids.foldl registerProcess initRegistry).processCount
        buf commandStr = Res.failed) ∧
    (∀ (env : MainEnv) (er : Bool),
      (∀ ib, env.fgets = some ib →
        (cstr (strtrimView (ib.set (strlen ib - 1) NUL))).getLast? = some '&') →
      (mainStep env ⟨ids.foldl registerProcess initRegistry, er⟩).1 =
        ⟨ids.foldl registerProcess initRegistry, er⟩ ∧
      ∀ e ∈ (mainStep env ⟨ids.foldl registerProcess initRegistry, er⟩).2.1,
        e.isLaunch = false) ∧
    ∀ id ∈ ids,
      (∀ (alloc : Nat → Bool) (k : Nat) (buf : List Char) (commandStr : Nat),
        (∀ j, alloc j = true) → (cstr (buf.drop commandStr)).getLast? = some '&' →
        ∃ command k1,
          parseCommand alloc k
            (unregisterProcess (ids.foldl registerProcess initRegistry) id).processCount
            buf commandStr = Res.ok (command, k1) ∧ command.background = true) ∧
      ∀ newId : Int,
        isProcess (registerProcess
          (unregisterProcess (ids.foldl registerProcess initRegistry) id) newId) newId = true := by
  have hall := register_all ids hpos initRegistry (by decide)
    (by rw [hlen]; decide)
  have hcount : (ids.foldl registerProcess initRegistry).processCount = MAX_PROCESSES := by
    rw [hall.2.1, hlen]; rfl
  have hfail : ∀ (alloc : Nat → Bool) (k : Nat) (buf : List Char) (commandStr : Nat),
      (cstr (buf.drop commandStr)).getLast? = some '&' →
      parseCommand alloc k (ids.foldl registerProcess initRegistry).processCount
        buf commandStr = Res.failed := by
    intro alloc k buf commandStr hl
    have hs : cstr (buf.drop commandStr) ≠ [] := by
      intro e; rw [e] at hl; simp at hl
    rcases parseCommand_cases alloc k _ buf commandStr hs with h | ⟨_, _, h⟩
    · exact h.1
    · exact absurd ⟨hl, hcount⟩ h
  refine ⟨hcount, hfail, ?_, ?_⟩
  · intro env er hline
    apply mainStep_of_failed
    intro ib hib
    exact hfail env.alloc 1 _ _ (hline ib hib)
  · intro id hid
    have hmem : id ∈ (ids.foldl registerProcess initRegistry).processes := hall.2.2.2 id hid
    have hc7 : (unregisterProcess (ids.foldl registerProcess initRegistry) id).processCount =
        MAX_PROCESSES - 1 := by
      rw [unregisterProcess_count _ id (by rw [hcount]; decide) (by rw [hcount]), hcount]
    constructor
    · intro alloc k buf commandStr halloc hl
      have hs : cstr (buf.drop commandStr) ≠ [] := by
        intro e; rw [e] at hl; simp at hl
      rcases parseCommand_cases alloc k
        (unregisterProcess (ids.foldl registerProcess initRegistry) id).processCount
        buf commandStr hs with h | ⟨k1, h, _⟩
      · rcases h.2 with ⟨j, hj⟩ | h2
        · rw [halloc j] at hj
          exact absurd hj (by simp)
        · rw [hc7] at h2
          exact absurd h2.2 (by decide)
      · refine ⟨_, k1, h, ?_⟩
        rw [commandOf_background]
        simp [hl]
    · intro newId
      rw [isProcess_iff_mem]
      exact mem_registerLoop_self newId _ (empty_mem_unregisterLoop id _ hmem)

theorem capacity_gate_witness :
    fullRegistry.processCount = MAX_PROCESSES ∧
    parseCommand (fun _ => true) 0 fullRegistry.processCount "sleep 5 &\x00".toList 0 =
      Res.failed ∧
    (∃ command k1,
      parseCommand (fun _ => true) 0 (unregisterProcess fullRegistry 103).processCount
        "sleep 5 &\x00".toList 0 = Res.ok (command, k1) ∧ command.background = true) ∧
    isProcess (registerProcess (unregisterProcess fullRegistry 103) 4242) 4242 = true :=
  ⟨(capacity_gate [101, 102, 103, 104, 105, 106, 107, 108] (by decide) (by decide)).1,
    (capacity_gate [101, 102, 103, 104, 105, 106, 107, 108] (by decide) (by decide)).2.1
      (fun _ => true) 0 "sleep 5 &\x00".toList 0 (by decide),
    ((capacity_gate [101, 102, 103, 104, 105, 106, 107, 108] (by decide) (by decide)).2.2.2
      103 (by decide)).1 (fun _ => true) 0 "sleep 5 &\x00".toList 0 (fun _ => rfl) (by decide),
    ((capacity_gate [101, 102, 103, 104, 105, 106, 107, 108] (by decide) (by decide)).2.2.2
      103 (by decide)).2 4242⟩

/-! ## The `wait` command, the built-in dispatch and the end of the input -/

/-- C12 (the code departs from the claim): in "wait 12 x" the token x does not
parse, but the test compares the end pointer with args[1] instead of args[i],
so x is not reported and the value 0 is forwarded for it; in "wait x 12" the
token x is reported, yet the cell of pids that belongs to it is forwarded with
its uninitialised content (0 in this environment); and in
"wait 5 99999999999999999999 7" the out-of-range token and, errno staying
ERANGE, the valid token 7 behind it are both reported with the text of args[1],
"5". -/
theorem wait_forwards_unparsed_tokens :
    mainStep (calmEnv "wait 12 x") ⟨initRegistry, false⟩ =
      (⟨initRegistry, false⟩,
        [MainEvent.waitForPIDs [12, 0] [WaitEvent.notChild 12, WaitEvent.notChild 0]
          (some WaitExit.noValid), MainEvent.freeCommand], Ctl.next) ∧
    mainStep (calmEnv "wait x 12") ⟨initRegistry, false⟩ =
      (⟨initRegistry, false⟩,
        [MainEvent.notValidPid (Slot.str "x".toList),
          MainEvent.waitForPIDs [0, 12] [WaitEvent.notChild 0, WaitEvent.notChild 12]
            (some WaitExit.noValid), MainEvent.freeCommand], Ctl.next) ∧
    mainStep (calmEnv "wait 5 99999999999999999999 7") ⟨initRegistry, false⟩ =
      (⟨initRegistry, true⟩,
        [MainEvent.notValidPid (Slot.str "5".toList),
          MainEvent.notValidPid (Slot.str "5".toList),
          MainEvent.waitForPIDs [5, 0, 0]
            [WaitEvent.notChild 5, WaitEvent.notChild 0, WaitEvent.notChild 0]
            (some WaitExit.noValid), MainEvent.freeCommand], Ctl.next) := by
  decide

theorem unregisterLoop_of_not_held (id : Int) (ps : List Int) (h : id = -1 ∨ id ∉ ps) :
    unregisterLoop id ps = ps := by
  induction ps with
  | nil => rfl
  | cons p ps ih =>
    unfold unregisterLoop
    by_cases hp : p = id
    · rw [if_pos hp]
      rcases h with h | h
      · rw [hp, h]
      · exact absurd (hp ▸ List.mem_cons_self _ _) h
    · rw [if_neg hp, ih]
      rcases h with h | h
      · exact Or.inl h
      · exact Or.inr (fun e => h (List.mem_cons_of_mem _ e))

/-- C13 (as amended): for every registry state and every id that is not held in
any slot, unregisterProcess(id) leaves every slot as it is and decrements
processCount by one in size_t arithmetic, so that processCount does change:
it becomes processCount - 1, and 2^64 - 1 when it was 0. -/
theorem unregisterProcess_absent (r : Registry) (id : Int) (h : ¬ Held r id) :
    (unregisterProcess r id).processes = r.processes ∧
    (unregisterProcess r id).processCount = (r.processCount + (SIZE_MOD - 1)) % SIZE_MOD ∧
    (0 < r.processCount → r.processCount < SIZE_MOD →
      (unregisterProcess r id).processCount = r.processCount - 1) ∧
    (r.processCount = 0 → (unregisterProcess r id).processCount = SIZE_MOD - 1) := by
  have hh : id = -1 ∨ id ∉ r.processes := by
    unfold Held at h
    by_cases h1 : id = -1
    · exact Or.inl h1
    · exact Or.inr (fun e => h ⟨h1, e⟩)
  refine ⟨unregisterLoop_of_not_held id r.processes hh, rfl, ?_, ?_⟩
  · intro hpos hlt
    show (r.processCount + (SIZE_MOD - 1)) % SIZE_MOD = _
    have e : r.processCount + (SIZE_MOD - 1) = (r.processCount - 1) + SIZE_MOD := by omega
    rw [e, Nat.add_mod_right, Nat.mod_eq_of_lt (by omega)]
  · intro h0
    show (r.processCount + (SIZE_MOD - 1)) % SIZE_MOD = _
    rw [h0, Nat.zero_add]
    exact Nat.mod_eq_of_lt (by decide)

theorem unregisterProcess_absent_witness :
    (unregisterProcess (registerProcess initRegistry 100) 5).processes =
      (registerProcess initRegistry 100).processes ∧
    (unregisterProcess (registerProcess initRegistry 100) 5).processCount =
      ((registerProcess initRegistry 100).processCount + (SIZE_MOD - 1)) % SIZE_MOD ∧
    (0 < (registerProcess initRegistry 100).processCount →
      (registerProcess initRegistry 100).processCount < SIZE_MOD →
      (unregisterProcess (registerProcess initRegistry 100) 5).processCount =
        (registerProcess initRegistry 100).processCount - 1) ∧
    ((registerProcess initRegistry 100).processCount = 0 →
      (unregisterProcess (registerProcess initRegistry 100) 5).processCount = SIZE_MOD - 1) :=
  unregisterProcess_absent (registerProcess initRegistry 100) 5 (by decide)

/-- C13 (the claim as stated fails): the id 5 is held in no slot of the
registry with the single job 100, and unregisterProcess(5) changes
processCount from 1 to 0 while the job 100 is still stored; on the initial
registry it changes processCount from 0 to 2^64 - 1. -/
theorem absent_id_changes_count :
    ¬ Held (registerProcess initRegistry 100) 5 ∧
    (registerProcess initRegistry 100).processCount = 1 ∧
    (unregisterProcess (registerProcess initRegistry 100) 5).processCount = 0 ∧
    (unregisterProcess (registerProcess initRegistry 100) 5).processes =
      [100, -1, -1, -1, -1, -1, -1, -1] ∧
    (unregisterProcess initRegistry 5).processCount = 18446744073709551615 ∧
    unregisterProcess initRegistry 5 ≠ initRegistry := by
  decide

theorem waitLoop_firstRuns (n : Nat) :
    ∀ (k : Nat) (tr : List WaitEvent),
      waitLoop firstRunsEnv 2 n k ⟨twoJobs, [100, 200], 0, 0, tr⟩ =
        (⟨twoJobs, [100, 200], 0, 0, tr ++ List.replicate n (WaitEvent.poll 100)⟩, none) := by
  induction n with
  | zero => intro k tr; simp [waitLoop]
  | succ n ih =>
    intro k tr
    have hstep : waitStep firstRunsEnv 2 k ⟨twoJobs, [100, 200], 0, 0, tr⟩ =
        (⟨twoJobs, [100, 200], 0, 0, tr ++ [WaitEvent.poll 100]⟩, none) := by
      simp [waitStep, firstRunsEnv]
    unfold waitLoop
    rw [hstep]
    simp only []
    rw [ih (k + 1) (tr ++ [WaitEvent.poll 100]), List.replicate_succ]
    simp

/-- C14 (the code departs from the claim): with the jobs 100 and 200
registered, the wait set (100, 200), the process 100 still running and the
process 200 terminated, every check of the polling loop is made on 100: after
any number n of iterations the trace consists of n polls of 100, the index i
is still 0, 200 has not been polled or reaped and is still registered, and
the loop has not returned. -/
theorem waitForPIDs_running_first_starves (n : Nat) :
    waitForPIDs firstRunsEnv n twoJobs [100, 200] =
      (⟨twoJobs, [100, 200], 0, 0, List.replicate n (WaitEvent.poll 100)⟩, none) ∧
    firstRunsEnv.waitpid n 200 = 200 ∧
    isProcess (waitForPIDs firstRunsEnv n twoJobs [100, 200]).1.reg 200 = true := by
  have hv : validatePids twoJobs [100, 200] = ([100, 200], 0, []) := by decide
  have hw : waitForPIDs firstRunsEnv n twoJobs [100, 200] =
      (⟨twoJobs, [100, 200], 0, 0, List.replicate n (WaitEvent.poll 100)⟩, none) := by
    unfold waitForPIDs
    simp only [hv]
    rw [if_neg (by decide)]
    have := waitLoop_firstRuns n 0 []
    simpa using this
  refine ⟨hw, by simp [firstRunsEnv], ?_⟩
  rw [hw]
  show isProcess twoJobs 200 = true
  decide

/-- C15 (the code departs from the claim): with the jobs 100 and 200 registered,
the end of the input makes main exit with EXIT_SUCCESS without any call of
kill, whereas the exit command signals the slots before it exits. -/
theorem eof_exits_without_killall :
    mainStep eofEnv ⟨twoJobs, false⟩ = (⟨twoJobs, false⟩, [], Ctl.exit 0) ∧
    mainStep (calmEnv "exit") ⟨twoJobs, false⟩ =
      (⟨twoJobs, false⟩,
        (killall twoJobs).map MainEvent.kill ++ [MainEvent.freeCommand], Ctl.exit 0) ∧
    MainEvent.kill 100 ∈ (mainStep (calmEnv "exit") ⟨twoJobs, false⟩).2.1 := by
  decide

/-- C18 (the code departs from the claim): the program names "cdx" and "waiter"
are not "cd" and "wait", yet strncmp compares only their first 2 and 4
characters: "cdx /tmp" changes the directory to /tmp and "waiter" runs the wait
handler; neither reaches launchProgram, which the name "ls" does. -/
theorem builtin_match_is_prefix :
    mainStep (calmEnv "cdx /tmp") ⟨initRegistry, false⟩ =
      (⟨initRegistry, false⟩,
        [MainEvent.chdir (Slot.str "/tmp".toList), MainEvent.freeCommand], Ctl.next) ∧
    mainStep (calmEnv "waiter") ⟨initRegistry, false⟩ =
      (⟨initRegistry, false⟩,
        [MainEvent.waitForPIDs [] [] (some WaitExit.noValid), MainEvent.freeCommand],
        Ctl.next) ∧
    (mainStep (calmEnv "ls") ⟨initRegistry, false⟩).2.1.map MainEvent.isLaunch =
      [true, false, false] := by
  decide

/-- C20 (the code departs from the claim): for the line of two spaces the
empty-input check, made on inputBuffer and not on the trimmed input, does not
skip the line: the command line is the empty string, parseCommand is called on
it at offset 2 of the buffer, reads the space before the string as
commandStr[length - 1], and returns true with one stage of argc 0, whose
args[0] == NULL main then hands to strcmp. -/
theorem whitespace_line_reaches_parseCommand :
    commandLine "  \n\x00".toList = [] ∧
    strtrim "  \x00\x00".toList = (2, "  \x00\x00".toList) ∧
    strlen (strtrim "  \x00\x00".toList).2 = 2 ∧
    parseCommand (fun _ => true) 1 0 "  \x00\x00".toList 2 =
      Res.ok (⟨[⟨[Slot.null], 0, 1⟩], 1, 2, false⟩, 3) ∧
    mainStep (calmEnv "  ") ⟨initRegistry, false⟩ = (⟨initRegistry, false⟩, [], Ctl.fault) := by
  decide

/-! ## What `strtrim` returns -/

theorem rdropWhile_split (p : Char → Bool) (t : List Char) :
    ∃ post, t = t.rdropWhile p ++ post ∧ ∀ c ∈ post, p c = true := by
  induction t using List.reverseRecOn with
  | nil => exact ⟨[], by simp, by simp⟩
  | append_singleton xs c ih =>
    obtain ⟨post, h1, h2⟩ := ih
    by_cases hc : p c = true
    · refine ⟨post ++ [c], ?_, ?_⟩
      · rw [List.rdropWhile_concat_pos _ _ _ hc, ← List.append_assoc, ← h1]
      · intro x hx
        rcases List.mem_append.mp hx with h | h
        · exact h2 x h
        · rw [List.mem_singleton.mp h]; exact hc
    · exact ⟨[], by rw [List.rdropWhile_concat_neg _ _ _ hc]; simp, by simp⟩

/-- A text is its trimmed text between a run of whitespace before it and a run
of whitespace behind it. -/
theorem trimStr_decomp (s : List Char) :
    ∃ pre post, s = pre ++ trimStr s ++ post ∧
      (∀ c ∈ pre, isspace c = true) ∧ (∀ c ∈ post, isspace c = true) := by
  obtain ⟨post, h1, h2⟩ := rdropWhile_split isspace (s.dropWhile isspace)
  refine ⟨s.takeWhile isspace, post, ?_, fun c hc => List.mem_takeWhile_imp hc, h2⟩
  unfold trimStr
  rw [List.append_assoc, ← h1, List.takeWhile_append_dropWhile]

theorem trimStr_head_not_space (s : List Char) (c : Char)
    (h : (trimStr s).head? = some c) : isspace c = false := by
  obtain ⟨post, hp⟩ := List.rdropWhile_prefix isspace (s.dropWhile isspace)
  have hd := List.head?_dropWhile_not isspace s
  cases ht : trimStr s with
  | nil => rw [ht] at h; simp at h
  | cons x xs =>
    rw [ht] at h
    have hx : x = c := by simpa using h
    have ht2 : (s.dropWhile isspace).rdropWhile isspace = x :: xs := ht
    rw [ht2] at hp
    rw [← hp] at hd
    simp only [List.cons_append, List.head?_cons] at hd
    rw [← hx]
    exact hd

theorem trimStr_last_not_space (s : List Char) (c : Char)
    (h : (trimStr s).getLast? = some c) : isspace c = false := by
  have hne : trimStr s ≠ [] := by
    intro e; rw [e] at h; simp at h
  have hl := List.rdropWhile_last_not isspace (s.dropWhile isspace) hne
  have e : (trimStr s).getLast? = some ((trimStr s).getLast hne) :=
    List.getLast?_eq_getLast _ hne
  rw [e] at h
  have hc : (trimStr s).getLast hne = c := by simpa using h
  rw [← hc]
  simpa using hl

theorem trimStr_of_all_space (s : List Char) (h : ∀ c ∈ s, isspace c = true) :
    trimStr s = [] := by
  unfold trimStr
  rw [List.dropWhile_eq_nil_iff.mpr h]
  exact List.rdropWhile_nil isspace

theorem strtrim_offset (m : List Char) : (strtrim m).1 = skipSpaces m := by
  unfold strtrim
  simp only []
  split <;> rfl

theorem strtrim_take (m : List Char) :
    (strtrim m).2.take (strtrim m).1 = m.take (strtrim m).1 := by
  rw [strtrim_offset]
  unfold strtrim
  simp only []
  split
  · rfl
  · simp only []
    apply List.ext_getElem?
    intro i
    by_cases hi : i < skipSpaces m
    · rw [List.getElem?_take_of_lt hi, List.getElem?_take_of_lt hi,
        List.getElem?_set_ne (by omega)]
    · rw [List.getElem?_take_eq_none (by omega), List.getElem?_take_eq_none (by omega)]

/-- C19: for every string, strtrim returns a pointer into the string (its
offset is at most strlen, and the memory before it is untouched) and the
string seen through it is the text of the argument with its leading and
trailing whitespace removed: the argument is a run of whitespace, the result,
and a run of whitespace; the result neither begins nor ends with a whitespace
character; and it is empty when the argument is empty or all whitespace. -/
theorem strtrim_spec (m : List Char) :
    (strtrim m).1 ≤ strlen m ∧
    (strtrim m).2.take (strtrim m).1 = m.take (strtrim m).1 ∧
    cstr (strtrimView m) = trimStr (cstr m) ∧
    (∃ pre post, cstr m = pre ++ cstr (strtrimView m) ++ post ∧
      pre.length = (strtrim m).1 ∧
      (∀ c ∈ pre, isspace c = true) ∧ (∀ c ∈ post, isspace c = true)) ∧
    (∀ c, (cstr (strtrimView m)).head? = some c → isspace c = false) ∧
    (∀ c, (cstr (strtrimView m)).getLast? = some c → isspace c = false) ∧
    ((∀ c ∈ cstr m, isspace c = true) → cstr (strtrimView m) = []) := by
  have hc := cstr_strtrimView m
  refine ⟨?_, strtrim_take m, hc, ?_, ?_, ?_, ?_⟩
  · rw [strtrim_offset]; exact skipSpaces_le_strlen m
  · obtain ⟨post, h1, h2⟩ := rdropWhile_split isspace ((cstr m).dropWhile isspace)
    refine ⟨(cstr m).take (skipSpaces (cstr m)), post, ?_, ?_, ?_, h2⟩
    · rw [hc]
      unfold trimStr
      rw [List.append_assoc, ← h1, ← drop_skipSpaces, List.take_append_drop]
    · rw [strtrim_offset, List.length_take, ← skipSpaces_cstr, ← strlen_eq_length_cstr]
      exact Nat.min_eq_left (skipSpaces_le_strlen m)
    · intro c hc1
      have : (cstr m).take (skipSpaces (cstr m)) = (cstr m).takeWhile isspace := by
        have h3 := List.takeWhile_append_dropWhile isspace (cstr m)
        have h4 := List.take_append_drop (skipSpaces (cstr m)) (cstr m)
        rw [drop_skipSpaces] at h4
        exact List.append_cancel_right (h4.trans h3.symm)
      rw [this] at hc1
      exact List.mem_takeWhile_imp hc1
  · intro c h; rw [hc] at h; exact trimStr_head_not_space _ c h
  · intro c h; rw [hc] at h; exact trimStr_last_not_space _ c h
  · intro h; rw [hc]; exact trimStr_of_all_space _ h

/-! ## The argument vector of a stage -/

theorem delim_not_mem_pieces (d : Char) (s : List Char) :
    ∀ q, q ∈ pieces d s → d ∉ q := by
  induction s with
  | nil =>
    intro q hq
    simp [pieces] at hq
    subst hq
    simp
  | cons x xs ih =>
    intro q hq
    by_cases hx : x = d
    · subst hx
      rw [pieces_cons_eq] at hq
      rcases List.mem_cons.mp hq with h | h
      · subst h; simp
      · exact ih q h
    · cases hp : pieces d xs with
      | nil => exact absurd hp (pieces_ne_nil d xs)
      | cons p ps =>
        rw [pieces_cons_ne d x xs hx p ps hp] at hq
        rcases List.mem_cons.mp hq with h | h
        · subst h
          intro hmem
          rcases List.mem_cons.mp hmem with h1 | h1
          · exact hx h1.symm
          · exact ih p (by rw [hp]; exact List.mem_cons_self _ _) h1
        · exact ih q (by rw [hp]; exact List.mem_cons_of_mem _ h)

theorem trimStr_of_no_space (q : List Char) (h : ∀ c ∈ q, isspace c = false) :
    trimStr q = q := by
  unfold trimStr
  have h1 : q.dropWhile isspace = q := by
    cases q with
    | nil => rfl
    | cons x xs =>
      have := h x (List.mem_cons_self _ _)
      simp [List.dropWhile_cons, this]
  rw [h1, List.rdropWhile_eq_self_iff]
  intro hl
  have := h (q.getLast hl) (List.getLast_mem hl)
  simp [this]

/-- The properties of the argument tokens of a text. -/
theorem argTokens_props (s t : List Char) (ht : t ∈ argTokens s) :
    t ≠ [] ∧ ' ' ∉ t ∧
    (∀ c, t.head? = some c → isspace c = false) ∧
    (∀ c, t.getLast? = some c → isspace c = false) ∧
    ∃ q ∈ pieces ' ' s, t = trimStr q := by
  unfold argTokens at ht
  obtain ⟨h1, h2⟩ := List.mem_filter.mp ht
  obtain ⟨q, hq, hqt⟩ := List.mem_map.mp h1
  subst hqt
  refine ⟨by simpa using h2, ?_, ?_, ?_, ⟨q, hq, rfl⟩⟩
  · intro hsp
    exact delim_not_mem_pieces ' ' s q hq (mem_of_mem_trimStr q ' ' hsp)
  · exact fun c hc => trimStr_head_not_space q c hc
  · exact fun c hc => trimStr_last_not_space q c hc

theorem argTokens_eq_nonSpaceRuns (s : List Char)
    (h : ∀ c ∈ s, isspace c = true → c = ' ') : argTokens s = nonSpaceRuns s := by
  unfold argTokens nonSpaceRuns
  have hmap : (pieces ' ' s).map trimStr = pieces ' ' s := by
    conv_rhs => rw [← List.map_id (pieces ' ' s)]
    apply List.map_congr_left
    intro q hq
    simp only [id]
    apply trimStr_of_no_space
    intro c hc
    by_contra hsp
    have hsp2 : isspace c = true := by simpa using hsp
    have hc2 := h c (mem_of_mem_pieces ' ' s q hq c hc) hsp2
    exact delim_not_mem_pieces ' ' s q hq (hc2 ▸ hc)
  rw [hmap]

/-- C17 (as amended): for every stage string, parseProgram returns true when no
allocation fails, and the argument vector it builds is the ordered sequence of
the pieces of the stage between space characters (' '), each without its
leading and trailing whitespace, the empty ones left out, followed by NULL,
with argc their number; every token is non-empty, contains no space character
and neither begins nor ends with whitespace; and when the stage holds no
whitespace other than ' ', the tokens are exactly its maximal runs of
non-space characters. -/
theorem parseProgram_tokens (alloc : Nat → Bool) (k : Nat) (m : List Char) :
    ((∀ j, alloc j = true) → ∃ p k1, parseProgram alloc k m = Res.ok (p, k1)) ∧
    (∀ p k1, parseProgram alloc k m = Res.ok (p, k1) →
      p.args = (argTokens (cstr m)).map Slot.str ++ [Slot.null] ∧
      p.argc = (argTokens (cstr m)).length) ∧
    (∀ t ∈ argTokens (cstr m),
      t ≠ [] ∧ ' ' ∉ t ∧
      (∀ c, t.head? = some c → isspace c = false) ∧
      (∀ c, t.getLast? = some c → isspace c = false) ∧
      ∃ q ∈ pieces ' ' (cstr m), t = trimStr q) ∧
    ((∀ c ∈ cstr m, isspace c = true → c = ' ') →
      argTokens (cstr m) = nonSpaceRuns (cstr m)) := by
  have hspec := parseProgram_spec alloc k m
  refine ⟨?_, ?_, fun t ht => argTokens_props (cstr m) t ht, argTokens_eq_nonSpaceRuns (cstr m)⟩
  · intro hall
    rw [hspec, if_pos (allocOK_all alloc hall _ _)]
    exact ⟨_, _, rfl⟩
  · intro p k1 hok
    rw [hspec] at hok
    split at hok
    · injection hok with e
      injection e with e1 _
      rw [← e1]
      exact ⟨rfl, rfl⟩
    · exact absurd hok (by simp)

theorem parseProgram_tokens_witness :
    (∃ p k1, parseProgram (fun _ => true) 0 " ls  -l \x00".toList = Res.ok (p, k1)) ∧
    ((programOf ["ls".toList, "-l".toList]).args =
        (argTokens (cstr " ls  -l \x00".toList)).map Slot.str ++ [Slot.null] ∧
      (programOf ["ls".toList, "-l".toList]).argc =
        (argTokens (cstr " ls  -l \x00".toList)).length) ∧
    argTokens (cstr " ls  -l \x00".toList) = nonSpaceRuns (cstr " ls  -l \x00".toList) :=
  ⟨(parseProgram_tokens (fun _ => true) 0 " ls  -l \x00".toList).1 (fun _ => rfl),
    (parseProgram_tokens (fun _ => true) 0 " ls  -l \x00".toList).2.1
      (programOf ["ls".toList, "-l".toList]) 5 (by decide),
    (parseProgram_tokens (fun _ => true) 0 " ls  -l \x00".toList).2.2.2 (by decide)⟩

/-- C17 (the claim as stated fails): the stage "a<TAB> b" has the maximal runs
of non-space characters "a<TAB>" and "b", but the argument vector is "a", "b":
the tab is trimmed from the token; and the stage "a<TAB>b c" yields the token
"a<TAB>b", which contains a whitespace character. -/
theorem parseProgram_trims_tokens :
    parseProgram (fun _ => true) 0 "a\t b\x00".toList =
      Res.ok (⟨[Slot.str "a".toList, Slot.str "b".toList, Slot.null], 2, 3⟩, 5) ∧
    nonSpaceRuns "a\t b".toList = ["a\t".toList, "b".toList] ∧
    [Slot.str "a".toList, Slot.str "b".toList, Slot.null] ≠
      (nonSpaceRuns "a\t b".toList).map Slot.str ++ [Slot.null] ∧
    parseProgram (fun _ => true) 0 "a\tb c\x00".toList =
      Res.ok (⟨[Slot.str "a\tb".toList, Slot.str "c".toList, Slot.null], 2, 3⟩, 5) ∧
    isspace '\t' = true := by
  decide

/-! ## `waitForPIDs` unregisters only what `waitpid` reported -/

theorem terminatedIds_append (a b : List WaitEvent) :
    terminatedIds (a ++ b) = terminatedIds a ++ terminatedIds b := by
  induction a with
  | nil => rfl
  | cons e rest ih =>
    cases e <;> simp [terminatedIds, ih]

theorem mem_terminatedIds (tr : List WaitEvent) (x : Int) :
    x ∈ terminatedIds tr ↔ WaitEvent.terminated x ∈ tr := by
  induction tr with
  | nil => simp [terminatedIds]
  | cons e rest ih =>
    cases e <;> simp [terminatedIds, ih]

theorem terminatedIds_validatePids (r : Registry) (pids : List Int) :
    terminatedIds (validatePids r pids).2.2 = [] := by
  induction pids with
  | nil => rfl
  | cons p ps ih =>
    unfold validatePids
    simp only []
    split
    · exact ih
    · simp [terminatedIds, ih]

theorem WaitInv_of_trace (env : WaitEnv) (r : Registry) (s t : WaitState)
    (h : WaitInv env r s) (hr : t.reg = s.reg)
    (ht : terminatedIds t.trace = terminatedIds s.trace) : WaitInv env r t := by
  unfold WaitInv at *
  rw [hr, ht]
  exact h

theorem WaitInv_reap (env : WaitEnv) (r : Registry) (s t : WaitState) (k : Nat) (pid : Int)
    (h : WaitInv env r s) (hpos : 0 < env.waitpid k pid)
    (hr : t.reg = unregisterProcess s.reg pid)
    (ht : terminatedIds t.trace = terminatedIds s.trace ++ [pid]) : WaitInv env r t := by
  unfold WaitInv at *
  rw [hr, ht, List.foldl_append, h.1]
  refine ⟨rfl, ?_⟩
  intro x hx
  rcases List.mem_append.mp hx with h1 | h1
  · exact h.2 x h1
  · rw [List.mem_singleton.mp h1]; exact ⟨k, hpos⟩

theorem waitStep_inv (env : WaitEnv) (r : Registry) (argc k : Nat) (s : WaitState)
    (h : WaitInv env r s) : WaitInv env r (waitStep env argc k s).1 := by
  unfold waitStep
  split
  · exact h
  · split
    · exact h
    · rename_i pid _
      split
      · dsimp only
        split
        · exact WaitInv_of_trace env r s _ h rfl
            (by simp [terminatedIds_append, terminatedIds])
        · split
          · rename_i hposr
            split
            · exact WaitInv_reap env r s _ k pid h hposr rfl
                (by simp [terminatedIds_append, terminatedIds])
            · exact WaitInv_reap env r s _ k pid h hposr rfl
                (by simp [terminatedIds_append, terminatedIds])
          · exact WaitInv_of_trace env r s _ h rfl
              (by simp [terminatedIds_append, terminatedIds])
      · exact h

theorem waitLoop_inv (env : WaitEnv) (r : Registry) (argc : Nat) :
    ∀ (fuel k : Nat) (s : WaitState), WaitInv env r s →
      WaitInv env r (waitLoop env argc fuel k s).1 := by
  intro fuel
  induction fuel with
  | zero => intro k s h; exact h
  | succ n ih =>
    intro k s h
    have hs := waitStep_inv env r argc k s h
    unfold waitLoop
    cases hw : waitStep env argc k s with
    | mk s1 e =>
      rw [hw] at hs
      cases e with
      | some e1 => exact hs
      | none => exact ih (k + 1) s1 hs

theorem waitForPIDs_inv (env : WaitEnv) (fuel : Nat) (r : Registry) (pids : List Int) :
    WaitInv env r (waitForPIDs env fuel r pids).1 := by
  have h0 : WaitInv env r
      ⟨r, (validatePids r pids).1, 0, (validatePids r pids).2.1, (validatePids r pids).2.2⟩ := by
    unfold WaitInv
    simp [terminatedIds_validatePids]
  unfold waitForPIDs
  simp only []
  split
  · exact h0
  · exact waitLoop_inv env r pids.length fuel 0 _ h0

theorem mem_unregisterLoop_of_ne (y x : Int) (ps : List Int) (h : y ≠ x) (hy : y ∈ ps) :
    y ∈ unregisterLoop x ps := by
  induction ps with
  | nil => simp at hy
  | cons p ps ih =>
    unfold unregisterLoop
    by_cases hp : p = x
    · rw [if_pos hp]
      rcases List.mem_cons.mp hy with h1 | h1
      · exact absurd (h1.trans hp) h
      · exact List.mem_cons_of_mem _ h1
    · rw [if_neg hp]
      rcases List.mem_cons.mp hy with h1 | h1
      · rw [h1]; exact List.mem_cons_self _ _
      · exact List.mem_cons_of_mem _ (ih h1)

theorem mem_foldl_unregister (y : Int) :
    ∀ (ids : List Int) (r : Registry), y ∉ ids → y ∈ r.processes →
      y ∈ (ids.foldl unregisterProcess r).processes := by
  intro ids
  induction ids with
  | nil => intro r _ h; exact h
  | cons x xs ih =>
    intro r hn hy
    simp only [List.foldl_cons]
    apply ih
    · exact fun e => hn (List.mem_cons_of_mem _ e)
    · exact mem_unregisterLoop_of_ne y x r.processes
        (fun e => hn (e ▸ List.mem_cons_self _ _)) hy

theorem count_foldl_unregister_mod :
    ∀ (ids : List Int) (r : Registry),
      (ids.foldl unregisterProcess r).processCount % SIZE_MOD =
        (r.processCount + ids.length * (SIZE_MOD - 1)) % SIZE_MOD := by
  intro ids
  induction ids with
  | nil => intro r; simp
  | cons x xs ih =>
    intro r
    simp only [List.foldl_cons, List.length_cons]
    rw [ih (unregisterProcess r x)]
    show ((r.processCount + (SIZE_MOD - 1)) % SIZE_MOD + xs.length * (SIZE_MOD - 1)) % SIZE_MOD = _
    rw [Nat.mod_add_mod]
    congr 1
    rw [Nat.add_mul, Nat.one_mul]
    omega

theorem count_foldl_unregister :
    ∀ (ids : List Int) (r : Registry), ids.length ≤ r.processCount →
      r.processCount < SIZE_MOD →
      (ids.foldl unregisterProcess r).processCount + ids.length = r.processCount := by
  intro ids
  induction ids with
  | nil => intro r _ _; rfl
  | cons x xs ih =>
    intro r hle hlt
    simp only [List.foldl_cons, List.length_cons] at *
    have hc : (unregisterProcess r x).processCount = r.processCount - 1 := by
      show (r.processCount + (SIZE_MOD - 1)) % SIZE_MOD = _
      have e : r.processCount + (SIZE_MOD - 1) = (r.processCount - 1) + SIZE_MOD := by omega
      rw [e, Nat.add_mod_right, Nat.mod_eq_of_lt (by omega)]
    have := ih (unregisterProcess r x) (by rw [hc]; omega) (by rw [hc]; omega)
    rw [hc] at this
    omega

/-- C16: in every call of waitForPIDs, however it ends, the registry is the
initial one after unregisterProcess of exactly the ids reported terminated, in
order, and each of these was reported by waitpid with a positive return value;
so every id that was registered at the start and has not been reported
terminated is still registered (isProcess is true), and processCount has
decreased by the number of ids reaped, in size_t arithmetic, which is the
exact difference when that number does not exceed processCount. -/
theorem waitForPIDs_reaps_only_terminated (env : WaitEnv) (fuel : Nat) (r : Registry)
    (pids : List Int) :
    (waitForPIDs env fuel r pids).1.reg =
      (terminatedIds (waitForPIDs env fuel r pids).1.trace).foldl unregisterProcess r ∧
    (∀ x, WaitEvent.terminated x ∈ (waitForPIDs env fuel r pids).1.trace →
      ∃ k, 0 < env.waitpid k x) ∧
    (∀ y, isProcess r y = true →
      WaitEvent.terminated y ∉ (waitForPIDs env fuel r pids).1.trace →
      isProcess (waitForPIDs env fuel r pids).1.reg y = true) ∧
    (waitForPIDs env fuel r pids).1.reg.processCount % SIZE_MOD =
      (r.processCount +
        (terminatedIds (waitForPIDs env fuel r pids).1.trace).length * (SIZE_MOD - 1)) %
        SIZE_MOD ∧
    ((terminatedIds (waitForPIDs env fuel r pids).1.trace).length ≤ r.processCount →
      r.processCount < SIZE_MOD →
      (waitForPIDs env fuel r pids).1.reg.processCount +
        (terminatedIds (waitForPIDs env fuel r pids).1.trace).length = r.processCount) := by
  have hinv := waitForPIDs_inv env fuel r pids
  unfold WaitInv at hinv
  refine ⟨hinv.1, ?_, ?_, ?_, ?_⟩
  · intro x hx
    exact hinv.2 x ((mem_terminatedIds _ x).mpr hx)
  · intro y hy hn
    rw [isProcess_iff_mem] at hy ⊢
    rw [hinv.1]
    exact mem_foldl_unregister y _ r (fun e => hn ((mem_terminatedIds _ y).mp e)) hy
  · rw [hinv.1]
    exact count_foldl_unregister_mod _ r
  · intro hle hlt
    have := count_foldl_unregister _ r hle hlt
    rw [← hinv.1] at this
    exact this

theorem waitForPIDs_reaps_only_terminated_witness :
    (waitForPIDs reapThenInterruptEnv 5 twoJobs [100, 200]).2 = some WaitExit.interrupted ∧
    (∃ k, 0 < reapThenInterruptEnv.waitpid k 100) ∧
    isProcess (waitForPIDs reapThenInterruptEnv 5 twoJobs [100, 200]).1.reg 200 = true ∧
    (waitForPIDs reapThenInterruptEnv 5 twoJobs [100, 200]).1.reg.processCount +
      (terminatedIds (waitForPIDs reapThenInterruptEnv 5 twoJobs [100, 200]).1.trace).length =
      twoJobs.processCount :=
  ⟨by decide,
    (waitForPIDs_reaps_only_terminated reapThenInterruptEnv 5 twoJobs [100, 200]).2.1 100
      (by decide),
    (waitForPIDs_reaps_only_terminated reapThenInterruptEnv 5 twoJobs [100, 200]).2.2.1 200
      (by decide) (by decide),
    (waitForPIDs_reaps_only_terminated reapThenInterruptEnv 5 twoJobs [100, 200]).2.2.2.2
      (by decide) (by decide)⟩

/-! ## Validation errors in the loop of `main` -/

theorem trimStr_ne_nil (s : List Char) (h : trimStr s ≠ []) : s ≠ [] := by
  intro e
  rw [e] at h
  exact h rfl

theorem strlen_strtrim_ne_zero (m : List Char) (h : cstr (strtrimView m) ≠ []) :
    strlen (strtrim m).2 ≠ 0 := by
  rw [cstr_strtrimView] at h
  have hc := trimStr_ne_nil _ h
  have hpos : 0 < strlen m := by
    rw [strlen_eq_length_cstr]; exact List.length_pos.mpr hc
  have h0 := rd_ne_NUL_of_lt m 0 hpos
  have hrd : rd (strtrim m).2 0 = rd m 0 := by
    unfold strtrim
    simp only []
    split
    · rfl
    · exact rd_set_ne m _ 0 NUL (by omega)
  have := strlen_pos_of_rd (strtrim m).2 (by rw [hrd]; exact h0)
  omega

theorem strlen_ne_zero_of_commandLine (ib : List Char) (h : commandLine ib ≠ []) :
    strlen ib ≠ 0 := by
  intro h0
  apply h
  unfold commandLine
  rw [cstr_strtrimView, h0, cstr_set ib _ (by omega)]
  rfl

/-- The loop iteration of `main` on a non-empty command line: the line is
handed to `parseCommand` and a successful result to the dispatch. -/
theorem mainStep_parse (env : MainEnv) (st : ShellState) (ib : List Char)
    (h0 : env.alloc 0 = true) (h1 : env.getcwd = true) (hf : env.fgets = some ib)
    (hl : commandLine ib ≠ []) :
    mainStep env st =
      match parseCommand env.alloc 1 st.reg.processCount
          (strtrim (ib.set (strlen ib - 1) NUL)).2 (strtrim (ib.set (strlen ib - 1) NUL)).1 with
      | Res.ok (command, k) => dispatch env k st command
      | Res.failed => (st, [MainEvent.freeCommand], Ctl.exit 1)
      | Res.fault => (st, [], Ctl.fault)
      | Res.outOfFuel => (st, [], Ctl.outOfFuel) := by
  unfold mainStep
  simp only [h0, h1, hf, Bool.not_true, Bool.false_eq_true, if_false]
  rw [if_neg (strlen_ne_zero_of_commandLine ib hl), if_neg (strlen_strtrim_ne_zero _ hl)]

theorem launch_no_report (st : ShellState) (command : command_t) (forkRet : Int)
    (t : Slot) : MainEvent.notValidPid t ∉ (launch st command forkRet).2.1 := by
  unfold launch
  split
  · simp
  · split
    · simp
    · split <;> simp

/-- Whenever the `wait` branch of `main` is taken, and only then, a report of an
invalid process id can have been made; that branch does not call `exit`. -/
theorem runSingle_report_no_exit (env : MainEnv) (k : Nat) (st : ShellState)
    (command : command_t) (p : program_t) (name : List Char) (t : Slot)
    (h : MainEvent.notValidPid t ∈ (runSingle env k st command p name).2.1) :
    ∀ n, (runSingle env k st command p name).2.2 ≠ Ctl.exit n := by
  unfold runSingle at h ⊢
  split
  · rename_i h1
    rw [if_pos h1] at h
    simp at h
  · rename_i h1
    rw [if_neg h1] at h
    split
    · rename_i h2
      rw [if_pos h2] at h
      exfalso
      revert h
      split
      · simp
      · split
        · simp
        · split
          · simp
          · split <;> simp
    · rename_i h2
      rw [if_neg h2] at h
      split
      · dsimp only
        split
        · intro n; simp
        · split <;> intro n <;> simp
      · rename_i h3
        rw [if_neg h3] at h
        exfalso
        unfold launchProgram at h
        simp only [List.mem_cons] at h
        rcases h with h | h
        · exact absurd h (by simp)
        · exact launch_no_report st command env.fork t h

theorem dispatch_report_no_exit (env : MainEnv) (k : Nat) (st : ShellState)
    (command : command_t) (t : Slot)
    (h : MainEvent.notValidPid t ∈ (dispatch env k st command).2.1) :
    ∀ n, (dispatch env k st command).2.2 ≠ Ctl.exit n := by
  unfold dispatch at h ⊢
  by_cases h1 : command.count = 1
  · rw [if_pos h1] at h ⊢
    revert h
    cases command.programs[0]? with
    | none => intro h; simp at h
    | some p =>
      dsimp only
      cases p.args[0]? with
      | none => intro h; simp at h
      | some a =>
        cases a with
        | str name => intro h; exact runSingle_report_no_exit env k st command p name t h
        | garbage => intro h; simp at h
        | null => intro h; simp at h
  · rw [if_neg h1] at h ⊢
    by_cases h2 : command.count = 2
    · rw [if_pos h2] at h
      exfalso
      unfold launchProgramWithPipe at h
      simp only [List.mem_cons] at h
      rcases h with h | h
      · exact absurd h (by simp)
      · exact launch_no_report st command env.fork t h
    · rw [if_neg h2] at h
      simp at h

theorem mainStep_report_no_exit (env : MainEnv) (st : ShellState) (t : Slot)
    (h : MainEvent.notValidPid t ∈ (mainStep env st).2.1) :
    ∀ n, (mainStep env st).2.2 ≠ Ctl.exit n := by
  unfold mainStep at h ⊢
  split
  · rename_i h1; rw [if_pos h1] at h; simp at h
  · rename_i h1
    rw [if_neg h1] at h
    split
    · rename_i h2; rw [if_pos h2] at h; simp at h
    · rename_i h2
      rw [if_neg h2] at h
      split
      · rename_i hf; rw [hf] at h; simp at h
      · rename_i ib hf
        rw [hf] at h
        dsimp only at h ⊢
        split
        · intro n; simp
        · rename_i h3
          rw [if_neg h3] at h
          split
          · intro n; simp
          · rename_i h4
            rw [if_neg h4] at h
            split
            · rename_i command k hp
              rw [hp] at h
              exact dispatch_report_no_exit env k st command t h
            · rename_i hp; rw [hp] at h; simp at h
            · intro n; simp
            · intro n; simp

/-! ## The `wait` handler after a report of an invalid id -/

theorem validatePids_length (r : Registry) (pids : List Int) :
    (validatePids r pids).1.length = pids.length := by
  induction pids with
  | nil => rfl
  | cons p ps ih =>
    unfold validatePids
    simp only []
    split <;> simp [ih]

/-- While the index `i` is inside the array `pids` of `argc` cells, an
iteration of the polling loop reads no cell outside of it and leaves `i`
inside. -/
theorem waitStep_bounds (env : WaitEnv) (argc k : Nat) (s : WaitState)
    (hi : s.i < s.pids.length) (ha : argc = s.pids.length) :
    (waitStep env argc k s).2 ≠ some WaitExit.outOfBounds ∧
    (waitStep env argc k s).1.pids = s.pids ∧
    (waitStep env argc k s).1.i < s.pids.length := by
  unfold waitStep
  split
  · exact ⟨by simp, rfl, hi⟩
  · split
    · rename_i hnone
      rw [List.getElem?_eq_none_iff] at hnone
      omega
    · split
      · dsimp only
        split
        · exact ⟨by simp, rfl, hi⟩
        · split
          · split
            · exact ⟨by simp, rfl, hi⟩
            · refine ⟨by simp, rfl, ?_⟩
              dsimp only
              split
              · omega
              · omega
          · exact ⟨by simp, rfl, hi⟩
      · exact ⟨by simp, rfl, hi⟩

theorem waitLoop_bounds (env : WaitEnv) (argc : Nat) :
    ∀ (fuel k : Nat) (s : WaitState), s.i < s.pids.length → argc = s.pids.length →
      (waitLoop env argc fuel k s).2 ≠ some WaitExit.outOfBounds := by
  intro fuel
  induction fuel with
  | zero => intro k s _ _; simp [waitLoop]
  | succ n ih =>
    intro k s hi ha
    have hs := waitStep_bounds env argc k s hi ha
    unfold waitLoop
    cases hw : waitStep env argc k s with
    | mk s1 e =>
      rw [hw] at hs
      cases e with
      | some e1 => exact hs.1
      | none =>
        exact ih (k + 1) s1 (by rw [hs.2.1]; exact hs.2.2) (by rw [hs.2.1]; exact ha)

/-- The polling loop of `waitForPIDs` never reads `pids` outside of the array. -/
theorem waitForPIDs_in_bounds (env : WaitEnv) (fuel : Nat) (r : Registry) (pids : List Int) :
    (waitForPIDs env fuel r pids).2 ≠ some WaitExit.outOfBounds := by
  unfold waitForPIDs
  simp only []
  split
  · simp
  · rename_i h
    apply waitLoop_bounds
    · simp only [validatePids_length]
      omega
    · simp only [validatePids_length]

theorem parsePids_str (a : Slot) :
    ∀ (l : List (List Char)) (i : Nat) (pids : List Int) (er : Bool),
      (parsePids a (l.map Slot.str) i pids er).2.2.2 = true ∧
      ∀ e ∈ (parsePids a (l.map Slot.str) i pids er).2.1, e = MainEvent.notValidPid a := by
  intro l
  induction l with
  | nil => intro i pids er; simp [parsePids]
  | cons s rest ih =>
    intro i pids er
    simp only [List.map_cons]
    unfold parsePids
    dsimp only
    split
    · have := ih (i + 1) pids (er || (strtol s).2.2)
      refine ⟨this.1, ?_⟩
      intro e he
      simp only [List.mem_cons] at he
      rcases he with he | he
      · exact he
      · exact this.2 e he
    · exact ih _ _ _

theorem programOf_ids (toks : List (List Char)) :
    ((programOf toks).args.take (programOf toks).argc).drop 1 = (toks.drop 1).map Slot.str := by
  simp [programOf, List.take_append_eq_append_take]

/-- The `wait` branch of `main` on a program built by `parseProgram`: unless
the array `pids` is needed and its allocation fails, the ids are parsed,
`waitForPIDs` is called, and when it returns the command is freed and the next
iteration starts. -/
theorem runSingle_wait (env : MainEnv) (k : Nat) (st : ShellState) (command : command_t)
    (toks : List (List Char)) (name : List Char) (h1 : name ≠ "exit".toList)
    (h2 : name.take 2 ≠ "cd".toList) (h3 : name.take 4 = "wait".toList) :
    WaitHandled env st (runSingle env k st command (programOf toks) name) ∨
      ((runSingle env k st command (programOf toks) name).2.2 = Ctl.fault ∧
        env.alloc k = false) := by
  unfold runSingle
  rw [if_neg h1, if_neg h2, if_pos h3]
  dsimp only
  rw [programOf_ids]
  have hr := parsePids_str ((programOf toks).args.getD 1 Slot.garbage) (toks.drop 1) 1
    ((List.range ((programOf toks).argc - 1)).map env.garbage) st.errnoRange
  by_cases hc : env.alloc k = false ∧ 0 < (programOf toks).argc - 1
  · right
    rw [if_pos (Or.inr hc)]
    exact ⟨rfl, hc.1⟩
  · left
    rw [if_neg (by rw [hr.1]; simpa using hc)]
    generalize parsePids ((programOf toks).args.getD 1 Slot.garbage)
      (List.map Slot.str (List.drop 1 toks)) 1
      (List.map env.garbage (List.range ((programOf toks).argc - 1))) st.errnoRange = r at hr ⊢
    refine ⟨r.2.1, r.1, fun e he => ⟨_, hr.2 e he⟩, ?_⟩
    split
    · rename_i hw
      left
      exact ⟨hw, by rw [hw], rfl⟩
    · rename_i hw
      exact absurd hw (waitForPIDs_in_bounds _ _ _ _)
    · rename_i hw
      right
      exact ⟨_, hw, by rw [hw]; simp, rfl, rfl⟩
    · rename_i x _ _ hw
      right
      exact ⟨_, hw, by rw [hw]; simp, rfl, rfl⟩

/-- An iteration that reports an invalid id took the `wait` branch. -/
theorem runSingle_wait_handled (env : MainEnv) (k : Nat) (st : ShellState)
    (command : command_t) (toks : List (List Char)) (name : List Char) (t : Slot)
    (h : MainEvent.notValidPid t ∈ (runSingle env k st command (programOf toks) name).2.1) :
    WaitHandled env st (runSingle env k st command (programOf toks) name) ∨
      ((runSingle env k st command (programOf toks) name).2.2 = Ctl.fault ∧
        env.alloc k = false) := by
  by_cases h1 : name = "exit".toList
  · exfalso
    unfold runSingle at h
    rw [if_pos h1] at h
    simp at h
  · by_cases h2 : name.take 2 = "cd".toList
    · exfalso
      unfold runSingle at h
      rw [if_neg h1, if_pos h2] at h
      revert h
      split
      · simp
      · split
        · simp
        · split
          · simp
          · split <;> simp
    · by_cases h3 : name.take 4 = "wait".toList
      · exact runSingle_wait env k st command toks name h1 h2 h3
      · exfalso
        unfold runSingle at h
        rw [if_neg h1, if_neg h2, if_neg h3] at h
        unfold launchProgram at h
        simp only [List.mem_cons] at h
        rcases h with h | h
        · exact absurd h (by simp)
        · exact launch_no_report st command env.fork t h

theorem dispatch_wait_handled (env : MainEnv) (k : Nat) (st : ShellState)
    (command : command_t) (t : Slot)
    (hp : ∀ p ∈ command.programs, ∃ toks, p = programOf toks)
    (h : MainEvent.notValidPid t ∈ (dispatch env k st command).2.1) :
    WaitHandled env st (dispatch env k st command) ∨
      ((dispatch env k st command).2.2 = Ctl.fault ∧ env.alloc k = false) := by
  unfold dispatch at h ⊢
  by_cases h1 : command.count = 1
  · rw [if_pos h1] at h ⊢
    revert h
    cases hq : command.programs[0]? with
    | none => intro h; simp at h
    | some p =>
      obtain ⟨toks, rfl⟩ := hp p (List.mem_iff_getElem?.mpr ⟨0, hq⟩)
      dsimp only
      cases (programOf toks).args[0]? with
      | none => intro h; simp at h
      | some a =>
        cases a with
        | str name => intro h; exact runSingle_wait_handled env k st command toks name t h
        | garbage => intro h; simp at h
        | null => intro h; simp at h
  · rw [if_neg h1] at h
    exfalso
    by_cases h2 : command.count = 2
    · rw [if_pos h2] at h
      unfold launchProgramWithPipe at h
      simp only [List.mem_cons] at h
      rcases h with h | h
      · exact absurd h (by simp)
      · exact launch_no_report st command env.fork t h
    · rw [if_neg h2] at h
      simp at h

/-- Every stage that the loop of `parseCommand` stores is a program built by
`parseProgram`: strings followed by `NULL`. -/
theorem parseCommandLoop_programs (alloc : Nat → Bool) :
    ∀ (fuel k : Nat) (command : command_t) (sp : Option (List Char)) (c : command_t) (k1 : Nat),
      (∀ p ∈ command.programs, ∃ toks, p = programOf toks) →
      parseCommandLoop alloc fuel k command sp = Res.ok (c, k1) →
      ∀ p ∈ c.programs, ∃ toks, p = programOf toks := by
  intro fuel
  induction fuel with
  | zero => intro k command sp c k1 _ h; simp [parseCommandLoop] at h
  | succ n ih =>
    intro k command sp c k1 hp h
    unfold parseCommandLoop at h
    revert h
    split
    · intro h
      injection h with e
      injection e with e1 _
      rw [← e1]
      exact hp
    · rename_i tok rest _
      split
      · rw [parseProgram_spec]
        by_cases ha : allocOK alloc k (1 + 2 * (argTokens (cstr (strtrimView tok))).length) = true
        · rw [if_pos ha]
          dsimp only
          have hp1 : ∀ p ∈ command.programs ++ [programOf (argTokens (cstr (strtrimView tok)))],
              ∃ toks, p = programOf toks := by
            intro p hmem
            rcases List.mem_append.mp hmem with hm | hm
            · exact hp p hm
            · exact ⟨_, List.mem_singleton.mp hm⟩
          split
          · split
            · intro h
              exact ih _ _ rest c k1 hp1 h
            · intro h; simp at h
          · intro h
            exact ih _ _ rest c k1 hp1 h
        · rw [if_neg ha]
          intro h; simp at h
      · intro h; simp at h

theorem parseCommand_programs (alloc : Nat → Bool) (k processCount : Nat) (buf : List Char)
    (commandStr : Nat) (c : command_t) (k1 : Nat)
    (h : parseCommand alloc k processCount buf commandStr = Res.ok (c, k1)) :
    ∀ p ∈ c.programs, ∃ toks, p = programOf toks := by
  unfold parseCommand at h
  revert h
  split
  · dsimp only
    split
    · intro h; simp at h
    · split
      · intro h; simp at h
      · intro h
        exact parseCommandLoop_programs alloc _ _ _ _ c k1 (by simp) h
  · intro h; simp at h

/-- A loop iteration of `main` in which an id is reported as not valid: unless
an allocation fails, the `wait` handler calls `waitForPIDs`, and when that
returns, the command is freed and the next iteration starts. -/
theorem mainStep_wait_handled (env : MainEnv) (st : ShellState) (t : Slot)
    (h : MainEvent.notValidPid t ∈ (mainStep env st).2.1) :
    WaitHandled env st (mainStep env st) ∨
      ((mainStep env st).2.2 = Ctl.fault ∧ ∃ j, env.alloc j = false) := by
  unfold mainStep at h ⊢
  split
  · rename_i h1; rw [if_pos h1] at h; simp at h
  · rename_i h1
    rw [if_neg h1] at h
    split
    · rename_i h2; rw [if_pos h2] at h; simp at h
    · rename_i h2
      rw [if_neg h2] at h
      split
      · rename_i hf; rw [hf] at h; simp at h
      · rename_i ib hf
        rw [hf] at h
        dsimp only at h ⊢
        split
        · rename_i h3; rw [if_pos h3] at h; simp at h
        · rename_i h3
          rw [if_neg h3] at h
          split
          · rename_i h4; rw [if_pos h4] at h; simp at h
          · rename_i h4
            rw [if_neg h4] at h
            split
            · rename_i command k hp
              rw [hp] at h
              rcases dispatch_wait_handled env k st command t
                (parseCommand_programs _ _ _ _ _ _ _ hp) h with hw | hw
              · exact Or.inl hw
              · exact Or.inr ⟨hw.1, k, hw.2⟩
            · rename_i hp; rw [hp] at h; simp at h
            · rename_i hp; rw [hp] at h; simp at h
            · rename_i hp; rw [hp] at h; simp at h

theorem commandLine_eq (ib : List Char) :
    cstr ((strtrim (ib.set (strlen ib - 1) NUL)).2.drop (strtrim (ib.set (strlen ib - 1) NUL)).1) =
      commandLine ib := rfl

theorem wait_not_exit (name : List Char) (h : name.take 4 = "wait".toList) :
    name ≠ "exit".toList ∧ name.take 2 ≠ "cd".toList := by
  constructor
  · intro e
    rw [e] at h
    exact absurd h (by decide)
  · intro e
    have h2 : (name.take 4).take 2 = name.take 2 := by simp [List.take_take]
    rw [h, e] at h2
    exact absurd h2 (by decide)

/-- The `wait` branch of `main` reports the first id when `strtol` consumes
nothing of it. -/
theorem runSingle_wait_reports (env : MainEnv) (k : Nat) (st : ShellState)
    (command : command_t) (name x : List Char) (rest : List (List Char))
    (hname : name.take 4 = "wait".toList) (hx : (strtol x).2.1 = 0) :
    MainEvent.notValidPid (Slot.str x) ∈
      (runSingle env k st command (programOf (name :: x :: rest)) name).2.1 := by
  unfold runSingle
  rw [if_neg (wait_not_exit name hname).1, if_neg (wait_not_exit name hname).2, if_pos hname]
  dsimp only
  rw [programOf_ids]
  have hg : (programOf (name :: x :: rest)).args.getD 1 Slot.garbage = Slot.str x := by
    simp [programOf]
  rw [hg]
  have hr : ∃ evs, (parsePids (Slot.str x) (List.map Slot.str (List.drop 1 (name :: x :: rest))) 1
      (List.map env.garbage (List.range ((programOf (name :: x :: rest)).argc - 1)))
      st.errnoRange).2.1 = MainEvent.notValidPid (Slot.str x) :: evs := by
    simp only [List.drop_succ_cons, List.drop_zero, List.map_cons]
    unfold parsePids
    dsimp only
    rw [if_pos (Or.inl ⟨rfl, hx⟩)]
    exact ⟨_, rfl⟩
  generalize parsePids (Slot.str x) (List.map Slot.str (List.drop 1 (name :: x :: rest))) 1
    (List.map env.garbage (List.range ((programOf (name :: x :: rest)).argc - 1)))
    st.errnoRange = r at hr ⊢
  obtain ⟨evs, he⟩ := hr
  split
  · simp [he]
  · split <;> simp [he]

/-- A line without `|` and without `&` at its end whose first token starts
with `wait` and whose second token does not start with a number, no allocation
request failing: `main` reports the second token as not a valid process id. -/
theorem mainStep_wait_reports (env : MainEnv) (st : ShellState) (ib : List Char)
    (h0 : env.alloc 0 = true) (h1 : env.getcwd = true) (hf : env.fgets = some ib)
    (name x : List Char) (rest : List (List Char))
    (hall : ∀ j, env.alloc j = true)
    (hpipe : '|' ∉ commandLine ib) (hamp : (commandLine ib).getLast? ≠ some '&')
    (htok : argTokens (commandLine ib) = name :: x :: rest)
    (hname : name.take 4 = "wait".toList) (hx : (strtol x).2.1 = 0) :
    MainEvent.notValidPid (Slot.str x) ∈ (mainStep env st).2.1 := by
  have hl : commandLine ib ≠ [] := by
    intro e
    rw [e] at htok
    have hn : argTokens [] = [] := by decide
    rw [hn] at htok
    exact absurd htok (by simp)
  rw [mainStep_parse env st ib h0 h1 hf hl]
  rcases parseCommand_cases env.alloc 1 st.reg.processCount _ _
    (by rw [commandLine_eq]; exact hl) with h | ⟨k1, h, _⟩
  · rcases h.2 with ⟨j, hj⟩ | h2
    · rw [hall j] at hj
      exact absurd hj (by simp)
    · rw [commandLine_eq] at h2
      exact absurd h2.1 hamp
  · rw [h]
    simp only [commandLine_eq]
    have hc : commandOf (decide ((commandLine ib).getLast? = some '&')) (commandLine ib) =
        ⟨[programOf (name :: x :: rest)], 1, 2, false⟩ := by
      simp [commandOf, extendCommand, hamp, pieces_of_not_mem _ _ hpipe, stageOf, htok]
    rw [hc]
    unfold dispatch
    simp only [if_true, List.getElem?_cons_zero]
    have ha : (programOf (name :: x :: rest)).args[0]? = some (Slot.str name) := by
      simp [programOf]
    rw [ha]
    exact runSingle_wait_reports env k1 st _ name x rest hname hx

/-- C11 (as amended): in a loop iteration of main that reads a line, (1) a line
with more than two stages (two or more '|') that parseCommand accepts makes
main report the unsupported pipeline length, free the command and go on to the
next iteration without calling exit; (2) a background request made while
processCount is MAX_PROCESSES makes parseCommand return false, whereupon main
frees the command and calls exit(EXIT_FAILURE); (3) an iteration in which a
wait id is reported as not valid does not call exit; (4) in such an iteration,
unless an allocation request fails (the result of the malloc of pids is used
unchecked), the reports are followed by the call of waitForPIDs, and as soon as
waitForPIDs returns the command is freed and main goes on to the next
iteration, in the registry that waitForPIDs left: the iteration ends otherwise
only while waitForPIDs has not returned; (5) the report is made for every line
without '|' and without '&' at its end whose first token starts with "wait"
and of whose second token strtol consumes nothing, no allocation failing. -/
theorem validation_errors (env : MainEnv) (st : ShellState) (ib : List Char)
    (h0 : env.alloc 0 = true) (h1 : env.getcwd = true) (hf : env.fgets = some ib) :
    (2 ≤ (commandLine ib).count '|' → (∀ j, env.alloc j = true) →
      ¬ ((commandLine ib).getLast? = some '&' ∧ st.reg.processCount = MAX_PROCESSES) →
      mainStep env st =
        (st, [MainEvent.pipeLength ((commandLine ib).count '|' + 1), MainEvent.freeCommand],
          Ctl.next)) ∧
    ((commandLine ib).getLast? = some '&' → st.reg.processCount = MAX_PROCESSES →
      mainStep env st = (st, [MainEvent.freeCommand], Ctl.exit 1)) ∧
    (∀ t, MainEvent.notValidPid t ∈ (mainStep env st).2.1 →
      ∀ n, (mainStep env st).2.2 ≠ Ctl.exit n) ∧
    (∀ t, MainEvent.notValidPid t ∈ (mainStep env st).2.1 →
      WaitHandled env st (mainStep env st) ∨
        ((mainStep env st).2.2 = Ctl.fault ∧ ∃ j, env.alloc j = false)) ∧
    (∀ (name x : List Char) (rest : List (List Char)), (∀ j, env.alloc j = true) →
      '|' ∉ commandLine ib → (commandLine ib).getLast? ≠ some '&' →
      argTokens (commandLine ib) = name :: x :: rest →
      name.take 4 = "wait".toList → (strtol x).2.1 = 0 →
      MainEvent.notValidPid (Slot.str x) ∈ (mainStep env st).2.1) := by
  refine ⟨?_, ?_, fun t h => mainStep_report_no_exit env st t h,
    fun t h => mainStep_wait_handled env st t h,
    fun name x rest hall hpipe hamp htok hname hx =>
      mainStep_wait_reports env st ib h0 h1 hf name x rest hall hpipe hamp htok hname hx⟩
  · intro hp hall hcap
    have hl : commandLine ib ≠ [] := by
      intro e; rw [e] at hp; simp at hp
    rw [mainStep_parse env st ib h0 h1 hf hl]
    rcases parseCommand_cases env.alloc 1 st.reg.processCount _ _
      (by rw [commandLine_eq]; exact hl) with h | ⟨k1, h, _⟩
    · rcases h.2 with ⟨j, hj⟩ | h2
      · rw [hall j] at hj
        exact absurd hj (by simp)
      · rw [commandLine_eq] at h2
        exact absurd h2 hcap
    · rw [h]
      simp only [commandLine_eq]
      have hc := commandOf_count_eq (commandLine ib)
      rw [dispatch_long env k1 st _ (by rw [hc]; omega), hc]
  · intro hamp hfull
    have hl : commandLine ib ≠ [] := by
      intro e; rw [e] at hamp; simp at hamp
    rw [mainStep_parse env st ib h0 h1 hf hl]
    rcases parseCommand_cases env.alloc 1 st.reg.processCount _ _
      (by rw [commandLine_eq]; exact hl) with h | ⟨k1, _, h⟩
    · rw [h.1]
    · rw [commandLine_eq] at h
      exact absurd ⟨hamp, hfull⟩ h

theorem validation_errors_witness :
    mainStep (calmEnv "a | b | c") ⟨initRegistry, false⟩ =
      (⟨initRegistry, false⟩,
        [MainEvent.pipeLength ((commandLine ("a | b | c".toList ++ ['\n', NUL])).count '|' + 1),
          MainEvent.freeCommand], Ctl.next) ∧
    mainStep (calmEnv "sleep 9 &") ⟨fullRegistry, false⟩ =
      (⟨fullRegistry, false⟩, [MainEvent.freeCommand], Ctl.exit 1) ∧
    (∀ n, (mainStep (calmEnv "wait x") ⟨initRegistry, false⟩).2.2 ≠ Ctl.exit n) ∧
    (WaitHandled (calmEnv "wait x") ⟨initRegistry, false⟩
        (mainStep (calmEnv "wait x") ⟨initRegistry, false⟩) ∨
      ((mainStep (calmEnv "wait x") ⟨initRegistry, false⟩).2.2 = Ctl.fault ∧
        ∃ j, (calmEnv "wait x").alloc j = false)) ∧
    MainEvent.notValidPid (Slot.str "x".toList) ∈
      (mainStep (calmEnv "wait x") ⟨initRegistry, false⟩).2.1 ∧
    mainStep (calmEnv "wait x") ⟨initRegistry, false⟩ =
      (⟨initRegistry, false⟩,
        [MainEvent.notValidPid (Slot.str "x".toList),
          MainEvent.waitForPIDs [0] [WaitEvent.notChild 0] (some WaitExit.noValid),
          MainEvent.freeCommand], Ctl.next) :=
  ⟨(validation_errors (calmEnv "a | b | c") ⟨initRegistry, false⟩
      ("a | b | c".toList ++ ['\n', NUL]) rfl rfl rfl).1 (by decide) (fun _ => rfl) (by decide),
    (validation_errors (calmEnv "sleep 9 &") ⟨fullRegistry, false⟩
      ("sleep 9 &".toList ++ ['\n', NUL]) rfl rfl rfl).2.1 (by decide) (by decide),
    (validation_errors (calmEnv "wait x") ⟨initRegistry, false⟩
      ("wait x".toList ++ ['\n', NUL]) rfl rfl rfl).2.2.1 (Slot.str "x".toList) (by decide),
    (validation_errors (calmEnv "wait x") ⟨initRegistry, false⟩
      ("wait x".toList ++ ['\n', NUL]) rfl rfl rfl).2.2.2.1 (Slot.str "x".toList) (by decide),
    (validation_errors (calmEnv "wait x") ⟨initRegistry, false⟩
      ("wait x".toList ++ ['\n', NUL]) rfl rfl rfl).2.2.2.2 "wait".toList "x".toList []
      (fun _ => rfl) (by decide) (by decide) (by decide) (by decide) (by decide),
    by decide⟩

/-- C11 (the claim as stated fails): with eight jobs registered, the line
"sleep 5 &" is refused at the capacity check, and main does not go on to the
next prompt cycle: it frees the command and calls exit(EXIT_FAILURE). -/
theorem capacity_error_exits :
    fullRegistry.processCount = MAX_PROCESSES ∧
    mainStep (calmEnv "sleep 5 &") ⟨fullRegistry, false⟩ =
      (⟨fullRegistry, false⟩, [MainEvent.freeCommand], Ctl.exit 1) := by
  decide

/-! ## The writes of `parseProgram` stay inside the allocated vector -/

theorem parseProgramLoopLog_fst (alloc : Nat → Bool) :
    ∀ (fuel k : Nat) (params : program_t) (sp : Option (List Char)),
      (parseProgramLoopLog alloc fuel k params sp).1 = parseProgramLoop alloc fuel k params sp := by
  intro fuel
  induction fuel with
  | zero => intro k params sp; rfl
  | succ n ih =>
    intro k params sp
    unfold parseProgramLoopLog parseProgramLoop
    split
    · split <;> rfl
    · dsimp only
      split
      · split
        · split
          · split
            · split
              · exact ih _ _ _
              · rfl
            · exact ih _ _ _
          · rfl
        · rfl
      · exact ih _ _ _

theorem parseProgramLog_fst (alloc : Nat → Bool) (k : Nat) (m : List Char) :
    (parseProgramLog alloc k m).1 = parseProgram alloc k m := by
  unfold parseProgramLog parseProgram
  split
  · exact parseProgramLoopLog_fst alloc _ _ _ _
  · rfl

theorem reallocSlots_length (xs : List Slot) (n : Nat) : (reallocSlots xs n).length = n := by
  unfold reallocSlots
  simp only [List.length_take, List.length_append, List.length_replicate]
  omega

/-- Every write into `args` that the loop of `parseProgram` makes, started in a
state with `argc < malloced` cells allocated, has `argc < malloced`, with
`malloced` the number of cells of the array. -/
theorem parseProgramLoopLog_writes (alloc : Nat → Bool) :
    ∀ (fuel k : Nat) (params : program_t) (sp : Option (List Char)), ArgsInv params →
      ∀ w ∈ (parseProgramLoopLog alloc fuel k params sp).2,
        w.argc < w.malloced ∧ w.malloced = w.cells := by
  intro fuel
  induction fuel with
  | zero => intro k params sp _ w hw; simp [parseProgramLoopLog] at hw
  | succ n ih =>
    intro k params sp hinv w
    have hhere : ∀ w, w ∈ [(⟨params.argc, params.malloced, params.args.length⟩ : ArgsWrite)] →
        w.argc < w.malloced ∧ w.malloced = w.cells := by
      intro w hw
      rw [List.mem_singleton.mp hw]
      exact ⟨hinv.2, hinv.1.symm⟩
    unfold parseProgramLoopLog
    split
    · split <;> exact hhere w
    · dsimp only
      split
      · split
        · split
          · split
            · split
              · intro hw
                rcases List.mem_cons.mp hw with h | h
                · exact hhere w (by rw [h]; exact List.mem_singleton.mpr rfl)
                · refine ih _ _ _ ?_ w h
                  unfold ArgsInv
                  simp only [reallocSlots_length]
                  exact ⟨trivial, by omega⟩
              · exact hhere w
            · rename_i hne
              intro hw
              rcases List.mem_cons.mp hw with h | h
              · exact hhere w (by rw [h]; exact List.mem_singleton.mpr rfl)
              · refine ih _ _ _ ?_ w h
                unfold ArgsInv at hinv ⊢
                simp only [List.length_set]
                have h2 := hinv.2
                exact ⟨hinv.1, by omega⟩
          · exact hhere w
        · exact hhere w
      · exact ih _ _ _ hinv w

/-- C21: for every stage string, when no allocation fails, every write
params->args[params->argc] = ... that parseProgram makes has argc < malloced,
with malloced the number of cells of the array at that moment, so no write
leaves the allocated vector; parseProgram returns true, and on return the
vector has malloced cells, argc < malloced, args[0..argc-1] are non-empty
strings and args[argc] is NULL. -/
theorem parseProgram_argv (alloc : Nat → Bool) (k : Nat) (m : List Char)
    (hall : ∀ j, alloc j = true) :
    (parseProgramLog alloc k m).1 = parseProgram alloc k m ∧
    (∀ w ∈ (parseProgramLog alloc k m).2, w.argc < w.malloced ∧ w.malloced = w.cells) ∧
    ∃ p k1, parseProgram alloc k m = Res.ok (p, k1) ∧
      p.args.length = p.malloced ∧ p.argc < p.malloced ∧
      (∀ i, i < p.argc → ∃ s, s ≠ [] ∧ p.args[i]? = some (Slot.str s)) ∧
      p.args[p.argc]? = some Slot.null := by
  refine ⟨parseProgramLog_fst alloc k m, ?_, ?_⟩
  · intro w hw
    unfold parseProgramLog at hw
    rw [if_pos (hall k)] at hw
    exact parseProgramLoopLog_writes alloc _ _ _ _ ⟨rfl, by decide⟩ w hw
  · refine ⟨programOf (argTokens (cstr m)), k + 1 + 2 * (argTokens (cstr m)).length,
      ?_, ?_, ?_, ?_, ?_⟩
    · rw [parseProgram_spec, if_pos (allocOK_all alloc hall _ _)]
    · simp [programOf]
    · simp [programOf]
    · intro i hi
      have hi2 : i < (argTokens (cstr m)).length := hi
      refine ⟨(argTokens (cstr m))[i], ?_, ?_⟩
      · exact (argTokens_props (cstr m) _ (List.getElem_mem hi2)).1
      · simp only [programOf]
        rw [List.getElem?_append_left (by simpa using hi2)]
        simp [List.getElem?_eq_getElem hi2]
    · simp only [programOf]
      rw [List.getElem?_append_right (by simp)]
      simp

theorem parseProgram_argv_witness :
    (parseProgramLog (fun _ => true) 0 " ls  -l \x00".toList).1 =
      parseProgram (fun _ => true) 0 " ls  -l \x00".toList ∧
    (∀ w ∈ (parseProgramLog (fun _ => true) 0 " ls  -l \x00".toList).2,
      w.argc < w.malloced ∧ w.malloced = w.cells) ∧
    ∃ p k1, parseProgram (fun _ => true) 0 " ls  -l \x00".toList = Res.ok (p, k1) ∧
      p.args.length = p.malloced ∧ p.argc < p.malloced ∧
      (∀ i, i < p.argc → ∃ s, s ≠ [] ∧ p.args[i]? = some (Slot.str s)) ∧
      p.args[p.argc]? = some Slot.null :=
  parseProgram_argv (fun _ => true) 0 " ls  -l \x00".toList (fun _ => rfl)
end Shell
